import Mathlib

/-
Verification development for the Mage Hand synchronization module.

The subjects are the snapshot differ (deepDiff / applyDiff), the relay
connection state machine of the WebSocket handler (close handling,
reconnect backoff, the INIT:HELO schema gate), local session-code
validation, the sync orchestrator (handleActorUpdate), and the schema
registry (canMigrate / migrate).  Each definition is a shallow embedding
of the corresponding JavaScript function; comments state the source file
it is translated from and any modeling conventions.

Modeling conventions used throughout:
- JSON values are modeled by the inductive `JVal`; numbers are modeled as
  integers (the snapshots and diffs in the claims use small integers, and
  the differ only compares numbers for equality).
- JavaScript objects are association lists in property insertion order;
  real JS objects have unique keys, which appears as a well-formedness
  hypothesis where proofs need it.
- Strict equality (===) on primitives is value equality; the differ
  compares arrays and mixed values via JSON.stringify equality, which on
  these values coincides with structural equality of `JVal`.
- Fallible operations return Option / Except.
-/

namespace MageHand

/-! ## JSON values -/

/-- JSON-like runtime values: the payloads of snapshots and diffs.
`undefined` is not a member: the differ treats an absent key as
undefined, which the embedding models with `Option JVal`. -/
inductive JVal where
  | null
  | str (s : String)
  | num (n : Int)
  | bool (b : Bool)
  | arr (elems : List JVal)
  | obj (fields : List (String × JVal))

mutual

/-- Structural equality of JSON values.  This models both strict equality
on primitives and JSON.stringify equality on arrays/objects (stringify of
two values with the same field order agrees exactly with structural
equality on `JVal`). -/
def JVal.beq : JVal → JVal → Bool
  | .null, .null => true
  | .str a, .str b => a == b
  | .num a, .num b => a == b
  | .bool a, .bool b => a == b
  | .arr xs, .arr ys => beqList xs ys
  | .obj fs, .obj gs => beqFields fs gs
  | _, _ => false

def beqList : List JVal → List JVal → Bool
  | [], [] => true
  | x :: xs, y :: ys => JVal.beq x y && beqList xs ys
  | _, _ => false

def beqFields : List (String × JVal) → List (String × JVal) → Bool
  | [], [] => true
  | (k, v) :: fs, (l, w) :: gs => k == l && JVal.beq v w && beqFields fs gs
  | _, _ => false

end

/-- `isPrimitive` from src/unnamed/part_010 lines 75-81: null, undefined,
string, number, boolean.  (The undefined case is handled at the call
sites via `Option`.) -/
def isPrim : JVal → Bool
  | .null | .str _ | .num _ | .bool _ => true
  | _ => false

/-- `Array.isArray`. -/
def isArr : JVal → Bool
  | .arr _ => true
  | _ => false

/-- JavaScript truthiness test on a value (`!v` is true exactly on the
falsy values): null, false, 0, and the empty string are falsy; arrays and
objects (including empty ones) are truthy. -/
def falsy : JVal → Bool
  | .null => true
  | .bool b => !b
  | .num n => n == 0
  | .str s => s == ""
  | .arr _ => false
  | .obj _ => false

/-- Property read `o[k]` on an object, first match (JS objects have
unique keys). -/
def lookupField : List (String × JVal) → String → Option JVal
  | [], _ => none
  | (k', v) :: rest, k => if k' = k then some v else lookupField rest k

/-- Property write `o[k] = v`: replaces the value in place if the key
exists, otherwise appends the property (JS property insertion order). -/
def setField : List (String × JVal) → String → JVal → List (String × JVal)
  | [], k, v => [(k, v)]
  | (k', v') :: rest, k, v =>
    if k' = k then (k, v) :: rest else (k', v') :: setField rest k v

/-- Property delete `delete o[k]` (removes the first match; JS objects
have unique keys). -/
def removeField : List (String × JVal) → String → List (String × JVal)
  | [], _ => []
  | (k', v') :: rest, k =>
    if k' = k then rest else (k', v') :: removeField rest k

/-- `Object.keys`. -/
def keysOf (fs : List (String × JVal)) : List String := fs.map Prod.fst

def dedupGo : List String → List String → List String
  | _, [] => []
  | seen, x :: xs => if x ∈ seen then dedupGo seen xs else x :: dedupGo (x :: seen) xs

/-- Iteration order of `new Set([...a, ...b])`: first occurrences in
order. -/
def dedupFirst (l : List String) : List String := dedupGo [] l

/-! Needed before the differ: values found by property lookup are
structurally smaller, which justifies the recursion of `deepDiff`. -/

theorem sizeOf_lookupField {fs : List (String × JVal)} {k : String} {v : JVal}
    (h : lookupField fs k = some v) : sizeOf v < sizeOf fs := by
  induction fs with
  | nil => simp [lookupField] at h
  | cons p rest ih =>
    obtain ⟨k', v'⟩ := p
    simp only [lookupField] at h
    split at h
    · cases h; simp; omega
    · have := ih h; simp; omega

/-! ## The snapshot differ (src/unnamed/part_010, `deepDiff`) -/

/-- One operation record of a diff.  On the wire these are the literal
objects built at part_010 lines 10-14, 41-44, 46-49 and 52-56: the
previous value is stored under the key `old` and the new value under
`value` (see `opToJson`). -/
inductive Op where
  | add (value : JVal)
  | del (old : JVal)
  | update (old value : JVal)

/-- The JSON object the source literally builds for an operation record
(field order as in the source). -/
def opToJson : Op → JVal
  | .add v => .obj [("type", .str "add"), ("value", v)]
  | .del o => .obj [("type", .str "delete"), ("old", o)]
  | .update o v => .obj [("type", .str "update"), ("old", o), ("value", v)]

/-- Path construction from part_010 line 36:
`path ? path + "." + key : key`. -/
def joinPath (path k : String) : String := if path = "" then k else path ++ "." ++ k

mutual

/-- The `allKeys.forEach` loop of `deepDiff` (part_010 lines 30-70),
entered when both values are non-primitive and not both arrays.  Entries
accumulate in key iteration order. -/
def diffFields (fs gs : List (String × JVal)) (path : String) : List (String × Op) :=
  diffKeys fs gs path (dedupFirst (keysOf fs ++ keysOf gs))
termination_by (sizeOf fs + sizeOf gs, 2, 0)

def diffKeys (fs gs : List (String × JVal)) (path : String) : List String → List (String × Op)
  | [] => []
  | k :: ks => diffEntry fs gs path k ++ diffKeys fs gs path ks
termination_by ks => (sizeOf fs + sizeOf gs, 1, ks.length)

/-- The body of the per-key loop (part_010 lines 36-69).  An absent key
is `undefined` (the `none` cases).  For a primitive on either side an
inequality yields an `update`; for an array on either side a
JSON.stringify inequality yields an `update`; two plain objects recurse,
merging child entries under the extended dotted path. -/
def diffEntry (fs gs : List (String × JVal)) (path : String) (k : String) : List (String × Op) :=
  match h1 : lookupField fs k, h2 : lookupField gs k with
  | none, none => []
  | none, some nv => [(joinPath path k, .add nv)]
  | some ov, none => [(joinPath path k, .del ov)]
  | some ov, some nv =>
    if isPrim ov || isPrim nv then
      if JVal.beq ov nv then [] else [(joinPath path k, .update ov nv)]
    else if isArr ov || isArr nv then
      if JVal.beq ov nv then [] else [(joinPath path k, .update ov nv)]
    else
      match ov, nv with
      | .obj fs', .obj gs' => diffFields fs' gs' (joinPath path k)
      | _, _ => []
termination_by (sizeOf fs + sizeOf gs, 0, 0)
decreasing_by
  · have a1 := sizeOf_lookupField h1
    have a2 := sizeOf_lookupField h2
    simp at a1 a2
    apply Prod.Lex.left
    omega

end

/-- The two possible shapes of a `deepDiff` return value: the flat
mapping from dotted paths to operation records, or (when the top-level
values are primitives or arrays that differ) a single bare operation
record. -/
inductive DiffResult where
  | entries (d : List (String × Op))
  | record (op : Op)

/-- `Object.keys(o)` for an array: the stringified indices in order. -/
def fieldsOf : JVal → List (String × JVal)
  | .obj fs => fs
  | .arr xs => xs.enum.map (fun p => (toString p.1, p.2))
  | _ => []

/-- Top level of `deepDiff` (part_010 lines 1-73).  The source's
reference-equality fast path (`oldObj === newObj`, returning an empty
diff) is omitted: reference-equal values are structurally equal, and on
structurally equal values every branch below already returns an empty
diff, so the fast path is observationally redundant.  When exactly one of
the two values is an array the source falls through to the key loop,
where `Object.keys` of an array yields its stringified indices
(`fieldsOf`). -/
def deepDiff (o n : JVal) : DiffResult :=
  if isPrim o || isPrim n then
    if JVal.beq o n then .entries [] else .record (.update o n)
  else if isArr o && isArr n then
    if JVal.beq o n then .entries [] else .record (.update o n)
  else .entries (diffFields (fieldsOf o) (fieldsOf n) "")

/-- Number of keys of the value `deepDiff` returns
(`Object.keys(diff).length`): for the flat mapping it is the number of
entries; for a bare operation record it is the number of fields of that
record (2 or 3). -/
def diffKeyCount : DiffResult → Nat
  | .entries d => d.length
  | .record op => match op with
    | .add _ => 2
    | .del _ => 2
    | .update _ _ => 3

/-! ## Applying a diff (src/unnamed/part_010, `applyDiff`) -/

def splitGo (sep : Char) : List Char → List Char → List String
  | [], acc => [String.mk acc.reverse]
  | c :: cs, acc =>
    if c = sep then String.mk acc.reverse :: splitGo sep cs []
    else splitGo sep cs (c :: acc)

/-- JavaScript `s.split(sep)` for a single-character separator:
`"".split` gives `[""]`, separators at the ends give empty segments. -/
def splitOnChar (sep : Char) (s : String) : List String := splitGo sep s.data []

/-- `path.split(".")` (part_010 line 88). -/
def splitDot (s : String) : List String := splitOnChar '.' s

/-- The leaf step of `applyDiff` (part_010 lines 99-107): `add` and
`update` write `change.value` at the last key, `delete` removes it. -/
def applyLeaf (fields : List (String × JVal)) (k : String) : Op → List (String × JVal)
  | .add v => setField fields k v
  | .update _ v => setField fields k v
  | .del _ => removeField fields k

/-- Application of one diff entry whose path has already been split
(part_010 lines 88-107).  The source pops the last segment and walks the
remaining ones: at each step it reads `current[part]`, replaces a falsy
value (or an absent key) by a fresh `{}`, and descends; finally the
operation is applied at the last key.  The walk is modeled by peeling the
segments off the front, keeping the final segment as the leaf.

`none` models the walk reading or writing a property of a value that
does not support it: on a primitive this is a `TypeError` (the module is
in strict mode).  Walking into an array would in JS attach a named
property to the array object; `JVal` cannot represent such arrays, and no
diff produced by `deepDiff` ever navigates into an array (the differ
never recurses below an array), so the model also signals this
unsupported case as `none`. -/
def applyEntry (v : JVal) : List String → Op → Option JVal
  | [], _ => none
  | [k], op =>
    match v with
    | .obj fields => some (.obj (applyLeaf fields k op))
    | _ => none
  | k :: k2 :: rest, op =>
    match v with
    | .obj fields =>
      let sub := match lookupField fields k with
        | some w => if falsy w then JVal.obj [] else w
        | none => JVal.obj []
      (applyEntry sub (k2 :: rest) op).map (fun ns => .obj (setField fields k ns))
    | _ => none

/-- `applyDiff` (part_010 lines 83-111).  The initial
`JSON.parse(JSON.stringify(target))` deep copy is the identity on the
value of the snapshot (no `undefined` or functions occur in `JVal`); its
freshness effect is analyzed separately in the heap model below.  The
entries are applied in key insertion order. -/
def applyDiff (target : JVal) (diff : List (String × Op)) : Option JVal :=
  diff.foldl (fun acc e => acc.bind (fun cur => applyEntry cur (splitDot e.1) e.2)) (some target)

/-! ## Canonical forms: deep equality up to object key order

Deep equality of JSON values, as used by the round-trip law, ignores the
insertion order of object keys (two objects are deep-equal when they have
the same key set with deep-equal values).  The embedding realizes it by
comparing key-sorted canonical forms. -/

def insertPair (p : String × JVal) : List (String × JVal) → List (String × JVal)
  | [] => [p]
  | q :: qs => if q.1 ≤ p.1 then q :: insertPair p qs else p :: q :: qs

def sortPairs (l : List (String × JVal)) : List (String × JVal) :=
  l.foldl (fun acc p => insertPair p acc) []

mutual

/-- Canonical form: object fields sorted by key at every level. -/
def canon : JVal → JVal
  | .null => .null
  | .str s => .str s
  | .num n => .num n
  | .bool b => .bool b
  | .arr xs => .arr (canonList xs)
  | .obj fs => .obj (sortPairs (canonFields fs))

def canonList : List JVal → List JVal
  | [] => []
  | x :: xs => canon x :: canonList xs

def canonFields : List (String × JVal) → List (String × JVal)
  | [] => []
  | (k, v) :: fs => (k, canon v) :: canonFields fs

end

/-! ## Path-list mirror of the differ

For the round-trip proof the differ is mirrored with paths kept as lists
of keys instead of joined dotted strings; a bridge lemma below shows the
source-faithful string version is the mirror composed with path joining,
and that splitting recovers the segments when keys contain no dot. -/

mutual

def diffFieldsL (fs gs : List (String × JVal)) : List (List String × Op) :=
  diffKeysL fs gs (dedupFirst (keysOf fs ++ keysOf gs))
termination_by (sizeOf fs + sizeOf gs, 2, 0)

def diffKeysL (fs gs : List (String × JVal)) : List String → List (List String × Op)
  | [] => []
  | k :: ks => diffEntryL fs gs k ++ diffKeysL fs gs ks
termination_by ks => (sizeOf fs + sizeOf gs, 1, ks.length)

def diffEntryL (fs gs : List (String × JVal)) (k : String) : List (List String × Op) :=
  match h1 : lookupField fs k, h2 : lookupField gs k with
  | none, none => []
  | none, some nv => [([k], .add nv)]
  | some ov, none => [([k], .del ov)]
  | some ov, some nv =>
    if isPrim ov || isPrim nv then
      if JVal.beq ov nv then [] else [([k], .update ov nv)]
    else if isArr ov || isArr nv then
      if JVal.beq ov nv then [] else [([k], .update ov nv)]
    else
      match ov, nv with
      | .obj fs', .obj gs' => (diffFieldsL fs' gs').map (fun e => (k :: e.1, e.2))
      | _, _ => []
termination_by (sizeOf fs + sizeOf gs, 0, 0)
decreasing_by
  · have a1 := sizeOf_lookupField h1
    have a2 := sizeOf_lookupField h2
    simp at a1 a2
    apply Prod.Lex.left
    omega

end

/-- Applying a diff whose paths are already key lists. -/
def applyDiffL (target : JVal) (diff : List (List String × Op)) : Option JVal :=
  diff.foldl (fun acc e => acc.bind (fun cur => applyEntry cur e.1 e.2)) (some target)

/-! ## Well-formedness side conditions -/

/-- No duplicates, as a Boolean. -/
def nodupKeys : List String → Bool
  | [] => true
  | k :: ks => !ks.contains k && nodupKeys ks

mutual

/-- Objects at every level have unique keys (always true of values
produced by a JavaScript runtime, where an object cannot carry a
duplicate property). -/
def wfV : JVal → Bool
  | .obj fs => nodupKeys (keysOf fs) && wfF fs
  | .arr xs => wfL xs
  | _ => true

def wfL : List JVal → Bool
  | [] => true
  | x :: xs => wfV x && wfL xs

def wfF : List (String × JVal) → Bool
  | [] => true
  | (_, v) :: fs => wfV v && wfF fs

end

/-- A key that survives the dotted-path encoding: nonempty and without a
dot. -/
def goodKey (k : String) : Bool := k ≠ "" && k.data.all (· ≠ '.')

mutual

/-- All object keys at every level are `goodKey`. -/
def keysOkV : JVal → Bool
  | .obj fs => keysOkF fs
  | .arr xs => keysOkL xs
  | _ => true

def keysOkL : List JVal → Bool
  | [] => true
  | x :: xs => keysOkV x && keysOkL xs

def keysOkF : List (String × JVal) → Bool
  | [] => true
  | (k, v) :: fs => goodKey k && keysOkV v && keysOkF fs

end

/-! ## Session codes (src/scripts/ui/base-ui.js, src/scripts/ability-roller.js)

Session-code validation happens locally before any transport connection,
in two layers: `validateSessionCode` (base-ui.js line 193, a regular
expression) gates the connect action, and `getServerUrl`
(ability-roller.js lines 634-660) re-checks the segment count and
resolves the region tag before the WebSocket is opened (`connect`, lines
665-686, calls it before constructing the socket). -/

def isUpperCh (c : Char) : Bool := 'A' ≤ c && c ≤ 'Z'

def isUpperOrDigitCh (c : Char) : Bool := isUpperCh c || ('0' ≤ c && c ≤ '9')

/-- The regular expression of base-ui.js line 193:
`^[A-Z]{3}-[A-Z0-9]{3}-[A-Z0-9]{3}$`. -/
def validateSessionCode (code : String) : Bool :=
  match code.data with
  | [a, b, c, h1, d, e, f, h2, g, i, j] =>
    isUpperCh a && isUpperCh b && isUpperCh c && h1 == '-' &&
    isUpperOrDigitCh d && isUpperOrDigitCh e && isUpperOrDigitCh f && h2 == '-' &&
    isUpperOrDigitCh g && isUpperOrDigitCh i && isUpperOrDigitCh j
  | _ => false

/-- ASCII lowercasing of one character (`toLowerCase` on the region tag,
which is ASCII). -/
def lowerChar (c : Char) : Char :=
  if 'A' ≤ c ∧ c ≤ 'Z' then Char.ofNat (c.toNat + 32) else c

def lowerStr (s : String) : String := String.mk (s.data.map lowerChar)

/-- The region table of ability-roller.js lines 643-652. -/
def regionUrls : List (String × String) :=
  [ ("nyc", "wss://nyc-ws.magehand.org/ws"),
    ("sfo", "wss://sfo-ws.magehand.org/ws"),
    ("ams", "wss://ams-ws.magehand.org/ws"),
    ("lon", "wss://lon-ws.magehand.org/ws"),
    ("fra", "wss://fra-ws.magehand.org/ws"),
    ("tor", "wss://tor-ws.magehand.org/ws"),
    ("sgp", "wss://sgp-ws.magehand.org/ws"),
    ("blr", "wss://blr-ws.magehand.org/ws") ]

def assocLookup {α : Type} : List (String × α) → String → Option α
  | [], _ => none
  | (k', v) :: rest, k => if k' = k then some v else assocLookup rest k

/-- `getServerUrl` (ability-roller.js lines 634-660): split the code on
hyphens, require exactly three segments, lowercase the first segment and
resolve it in the region table; a thrown `Error` is an `Except.error`
carrying its message. -/
def getServerUrl (sessionCode : String) : Except String String :=
  match splitOnChar '-' sessionCode with
  | [p0, _, _] =>
    let region := lowerStr p0
    match assocLookup regionUrls region with
    | some url => .ok url
    | none => .error ("Unknown region: " ++ region)
  | _ => .error ("Invalid session code format: " ++ sessionCode)

/-- The complete local pre-transport acceptance of a session code: the
regular-expression gate of `connectToSession` followed by the
region/segment check of `getServerUrl` inside `connect`, both of which
run before any WebSocket is constructed. -/
def sessionCodeAccepted (code : String) : Bool :=
  validateSessionCode code && (getServerUrl code).isOk

/-! ## Connection states and close handling (src/scripts/ability-roller.js) -/

/-- The `ConnectionState` enumeration (ability-roller.js lines 489-497). -/
inductive ConnState where
  | disconnected
  | joining
  | joined
  | init
  | setup
  | play
  | suspended
  deriving DecidableEq, Repr

/-- The observable effect of one `onClose` invocation: the resulting
global connection state, the delay of a scheduled reconnect timer if one
was set, whether the persisted session record was cleared
(`game.user.unsetFlag("mage-hand", "session")`), and the updated
reconnect-attempt counter. -/
structure CloseEffect where
  state : ConnState
  scheduledDelay : Option Nat
  sessionCleared : Bool
  attempts : Nat
  deriving DecidableEq, Repr

/-- `attemptReconnect` (ability-roller.js lines 889-918): increment the
attempt counter; if it now exceeds the maximum, give up and disconnect;
otherwise schedule a reconnect after `reconnectDelay * 2 ^ (attempts - 1)`
milliseconds and mark the connection suspended. -/
def attemptReconnectF (attempts maxAttempts baseDelay : Nat) : CloseEffect :=
  let a := attempts + 1
  if a > maxAttempts then
    { state := .disconnected, scheduledDelay := none, sessionCleared := false, attempts := a }
  else
    { state := .suspended, scheduledDelay := some (baseDelay * 2 ^ (a - 1)),
      sessionCleared := false, attempts := a }

/-- `onClose` (ability-roller.js lines 836-884), by close code: 1000
(normal closure), 4000 (session not found), 4001 (session expired), 4002
(invalid session format) and 4003 (version mismatch) all go directly to
`Disconnected` and schedule nothing; 4000 and 4001 additionally clear the
persisted session record.  Any other code attempts reconnection while
attempts remain, else disconnects. -/
def onCloseF (attempts maxAttempts baseDelay : Nat) (code : Nat) : CloseEffect :=
  if code = 1000 then
    { state := .disconnected, scheduledDelay := none, sessionCleared := false, attempts }
  else if code = 4000 then
    { state := .disconnected, scheduledDelay := none, sessionCleared := true, attempts }
  else if code = 4001 then
    { state := .disconnected, scheduledDelay := none, sessionCleared := true, attempts }
  else if code = 4002 then
    { state := .disconnected, scheduledDelay := none, sessionCleared := false, attempts }
  else if code = 4003 then
    { state := .disconnected, scheduledDelay := none, sessionCleared := false, attempts }
  else if attempts < maxAttempts then
    attemptReconnectF attempts maxAttempts baseDelay
  else
    { state := .disconnected, scheduledDelay := none, sessionCleared := false, attempts }

/-- A run of consecutive unexpected transport closures (close code 1006,
not in the terminal table), starting from a given attempt counter; the
constants are the constructor values `maxReconnectAttempts = 3` and
`reconnectDelay = 1000` (ability-roller.js lines 594-595).  Collects the
delays of the reconnect timers that get scheduled.  `connect` resets the
counter to zero, so a fresh connection starts at `attempts = 0`. -/
def runCloses (attempts : Nat) : Nat → List Nat
  | 0 => []
  | n + 1 =>
    let e := onCloseF attempts 3 1000 1006
    match e.scheduledDelay with
    | some d => d :: runCloses e.attempts n
    | none => runCloses e.attempts n

/-! ## The connection state machine (global state per inbound event)

`updateConnectionState` (ability-roller.js lines 1607-1627) assigns the
new state unconditionally; no handler inspects the current global state
before assigning.  `stepStates` lists, per driving event, the successive
global states the handler assigns (possibly none).  The resume message is
modeled as carrying one of the protocol states (the relay echoes a state
it was previously told). -/

inductive InEvent where
  | connect
  | preJoinAck
  | preJoinResume (resumeFrom : ConnState)
  | preJoinReset (hasSession : Bool)
  | preJoined
  | initHelo (schemaMatches : Bool)
  | initHeloAck
  | setupActorAck
  | other
  deriving DecidableEq, Repr

/-- States assigned by the handler of each inbound event, in order:
`connect` assigns `JOINING` (line 680); `handlePreJoinAck` assigns
`JOINED` (line 935); `handlePreJoinResume` assigns `message.resumeFrom`
verbatim (line 950); `handlePreJoinReset` assigns `DISCONNECTED` and then
reconnects when a session code is present (lines 974-979);
`handlePreJoined` assigns `JOINED` (line 997); `handleInitHelo` on a
schema match assigns `INIT` then `SETUP` (lines 1086, 1109) and on a
mismatch assigns nothing; `handleInitHeloAck` assigns `SETUP` (line
1131); `handleSetupActorAck` assigns `PLAY` (line 1357).  `other` covers
the events whose handlers never touch the global state (setup requests,
play actions, suspension notices, errors, heartbeats). -/
def stepStates : InEvent → List ConnState
  | .connect => [.joining]
  | .preJoinAck => [.joined]
  | .preJoinResume s => [s]
  | .preJoinReset hasSession => if hasSession then [.disconnected, .joining] else [.disconnected]
  | .preJoined => [.joined]
  | .initHelo m => if m then [.init, .setup] else []
  | .initHeloAck => [.setup]
  | .setupActorAck => [.play]
  | .other => []

/-- The sequence of global states entered while processing a sequence of
events, starting from `Disconnected`. -/
def runTrace (es : List InEvent) : List ConnState :=
  es.foldl (fun acc e => acc ++ stepStates e) []

/-! ## The INIT:HELO handler (src/scripts/ability-roller.js lines 1047-1110) -/

/-- The `capabilities` payload of an INIT:HELO message.
`supportedFeatures` may be absent on the wire (`none`); the handler
defaults it to `[]` when storing it but forwards it verbatim in the
acknowledgment. -/
structure Capabilities where
  schemaVersion : String
  supportedFeatures : Option (List String)
  deriving DecidableEq, Repr

/-- The tracked state of one remote (mobile) client, `MobileClient`
(ability-roller.js lines 552-585).  `schemaVersion` and
`enabledFeatures` are the `stateData` fields this handler touches; the
fields it never touches (`clientInfo`, `displayName`, `selectedPlayer`,
`selectedActor`) are omitted from the model. -/
structure MobileClient where
  clientId : String
  clientType : String
  state : ConnState
  schemaVersion : String
  enabledFeatures : List String
  lastActivity : Nat
  deriving DecidableEq, Repr

/-- `new MobileClient(clientId)` (lines 553-566): fresh clients start in
state `JOINED` with schema version "1.0.0" and no features. -/
def newMobileClient (clientId : String) (now : Nat) : MobileClient :=
  { clientId, clientType := "mobile", state := .joined,
    schemaVersion := "1.0.0", enabledFeatures := [], lastActivity := now }

/-- Messages `handleInitHelo` can send.  The outgoing INIT:HELO carries
the host capabilities; the engine-version strings in it (module,
Foundry, system versions) are opaque environment reads and are omitted;
its schema version and feature list are modeled. -/
inductive HeloOut where
  | initDeny (toId reason details : String)
  | initHeloMsg (toId schemaVersion : String) (supportedFeatures : List String)
  | initHeloAck (toId negotiatedSchema : String) (enabledFeatures : Option (List String))
  deriving DecidableEq, Repr

/-- Result of one `handleInitHelo` invocation: the updated remote-client
roster, the successive global-state assignments, and the messages sent. -/
structure HeloResult where
  clients : List (String × MobileClient)
  stateUpdates : List ConnState
  sent : List HeloOut
  deriving DecidableEq, Repr

/-- Roster write `this.mobileClients.set(id, c)`: replace in place or
append. -/
def setClient : List (String × MobileClient) → String → MobileClient →
    List (String × MobileClient)
  | [], k, c => [(k, c)]
  | (k', c') :: rest, k, c =>
    if k' = k then (k, c) :: rest else (k', c') :: setClient rest k c

/-- The host schema version, the literal `ourSchema = "1.0.0"` of line
1064. -/
def ourSchema : String := "1.0.0"

/-- `handleInitHelo` (ability-roller.js lines 1047-1110).  An unknown
sender is first added to the roster (fresh `MobileClient`, lines
1054-1059).  On a schema mismatch an INIT:DENY with reason and details
is sent and the handler returns: no client state update, no global state
update (lines 1065-1074).  On a match the sender is moved to phase INIT
with the negotiated schema and features (`supportedFeatures || []`), the
global state becomes INIT, the host capabilities and an INIT:HELO:ACK
naming the negotiated schema and the feature set are sent, and the
global state becomes SETUP (lines 1076-1109). -/
def handleInitHeloF (clients : List (String × MobileClient)) (fromId : String)
    (caps : Capabilities) (now : Nat) : HeloResult :=
  let clients0 := match assocLookup clients fromId with
    | some _ => clients
    | none => clients ++ [(fromId, newMobileClient fromId now)]
  if caps.schemaVersion ≠ ourSchema then
    { clients := clients0
      stateUpdates := []
      sent := [.initDeny fromId "SCHEMA_MISMATCH"
        ("Foundry schema " ++ ourSchema ++ " incompatible with mobile " ++ caps.schemaVersion)] }
  else
    let clients1 := match assocLookup clients0 fromId with
      | some c => setClient clients0 fromId
          { c with state := .init, schemaVersion := caps.schemaVersion,
                   enabledFeatures := caps.supportedFeatures.getD [],
                   lastActivity := now }
      | none => clients0
    { clients := clients1
      stateUpdates := [.init, .setup]
      sent := [ .initHeloMsg fromId ourSchema ["combat", "spells", "items", "vision"],
                .initHeloAck fromId ourSchema caps.supportedFeatures ] }

/-! ## The sync orchestrator (src/unnamed/part_007, `handleActorUpdate`) -/

/-- A message the orchestrator can emit for one processed change: a full
sync (`sendFullSync`, which sends the freshly extracted actor data) or a
diff update (`sendUpdate`). -/
inductive SyncMsg where
  | fullSync (actorId : String)
  | updateMsg (actorId : String) (diff : DiffResult)

/-- Cache write `this.characterData.set(id, data)`. -/
def setSnap : List (String × JVal) → String → JVal → List (String × JVal)
  | [], k, v => [(k, v)]
  | (k', v') :: rest, k, v =>
    if k' = k then (k, v) :: rest else (k', v') :: setSnap rest k v

/-- `handleActorUpdate` (part_007 lines 242-266) for one qualifying
change.  `extracted` is the result of `extractCharacterData` (`none`
models a falsy extraction result, which aborts without touching the
cache).  `connected` is `websocketHandler.isConnected()` inside
`sendUpdate` / `sendFullSync` (lines 268-283); `actorResolvable` is the
`game.actors.get(actorId)` lookup inside `sendFullSync`.  On a cache hit
the diff against the cached snapshot is computed and an update message is
sent only when `Object.keys(diff).length > 0`; on a cache miss a full
sync is sent; in both cases the cache entry is replaced before the
branch (line 253). -/
def handleActorUpdateF (connected actorResolvable : Bool)
    (characterData : List (String × JVal)) (actorId : String)
    (extracted : Option JVal) : List (String × JVal) × Option SyncMsg :=
  match extracted with
  | none => (characterData, none)
  | some extractedData =>
    let lastData := assocLookup characterData actorId
    let cache := setSnap characterData actorId extractedData
    match lastData with
    | some last =>
      let diff := deepDiff last extractedData
      if 0 < diffKeyCount diff ∧ connected = true then
        (cache, some (.updateMsg actorId diff))
      else
        (cache, none)
    | none =>
      if connected = true ∧ actorResolvable = true then
        (cache, some (.fullSync actorId))
      else
        (cache, none)

/-! ## The schema registry (src/scripts/schemas/schema-registry.js) -/

/-- `Number(part)` on one version segment, combined with the `|| 0`
default of `parseVersion`: a string of digits parses to its value, and a
missing, empty or non-numeric segment contributes 0 (Number("") is 0,
NaN is falsy, and both collapse to 0 under `|| 0`).  Version segments in
practice are digit strings; exotic segments (signs, fractions) are out
of scope of this model. -/
def parseComp (s : String) : Int :=
  if s.data ≠ [] ∧ s.data.all Char.isDigit then
    ((s.data.foldl (fun acc c => acc * 10 + (c.toNat - 48)) 0 : Nat) : Int)
  else 0

/-- `parseVersion` (schema-registry.js lines 79-86). -/
def parseVersion (v : String) : Int × Int × Int :=
  let parts := splitOnChar '.' v
  (parseComp (parts.getD 0 ""), parseComp (parts.getD 1 ""), parseComp (parts.getD 2 ""))

/-- `compareVersions` (lines 95-109): -1, 0 or 1 by lexicographic
comparison of the parsed components. -/
def compareV (v1 v2 : String) : Int :=
  if (parseVersion v1).1 ≠ (parseVersion v2).1 then
    (if (parseVersion v1).1 < (parseVersion v2).1 then -1 else 1)
  else if (parseVersion v1).2.1 ≠ (parseVersion v2).2.1 then
    (if (parseVersion v1).2.1 < (parseVersion v2).2.1 then -1 else 1)
  else if (parseVersion v1).2.2 ≠ (parseVersion v2).2.2 then
    (if (parseVersion v1).2.2 < (parseVersion v2).2.2 then -1 else 1)
  else 0

/-- One schema definition: the feature list and the optional migration
function from the immediately preceding version.  The registry logic
reads nothing else. -/
structure SchemaDef where
  features : List String
  migration : Option (JVal → JVal)

/-- A registry: `SCHEMAS` as an association list from version string to
definition, in declaration order.  The registry logic is parameterized
over it so that the claims about `canMigrate` / `migrate`, which
quantify over registries with several versions, can be stated; the
shipped table is `theSchemas` below. -/
abbrev Registry := List (String × SchemaDef)

/-- The shipped `SCHEMAS` table (lines 17-71): the single version
"1.0.0", with no migration function. -/
def theSchemas : Registry :=
  [("1.0.0",
    { features := ["core-identity", "character-details", "combat-stats", "abilities",
                   "skills", "spell-slots", "spells", "weapons", "death-saves",
                   "exhaustion", "movement", "senses"],
      migration := none })]

/-- A three-version registry in the shape of Scenario B of the spec
(versions 1, 2, 3 with migration functions defined for 2 and 3), used to
exercise the migration theorems on a nontrivial chain. -/
def regThree : Registry :=
  [ ("1.0.0", { features := [], migration := none }),
    ("2.0.0", { features := [], migration := some (fun d => d) }),
    ("3.0.0", { features := [], migration := some (fun d => d) }) ]

/-- Stable insertion of a version into an already-sorted list, placing
it after every element that compares less-or-equal: together with the
fold below this models `Array.prototype.sort` with the `compareVersions`
comparator (a stable sort). -/
def insertV (x : String) : List String → List String
  | [] => [x]
  | y :: ys => if compareV y x ≤ 0 then y :: insertV x ys else x :: y :: ys

def sortVersions (l : List String) : List String :=
  l.foldl (fun acc x => insertV x acc) []

/-- `getVersionsInOrder` (lines 194-196): the registry keys sorted by
the version comparator. -/
def versionsInOrder (reg : Registry) : List String :=
  sortVersions (reg.map Prod.fst)

/-- `Array.prototype.indexOf`, with -1 modeled as `none`. -/
def idxOf : List String → String → Option Nat
  | [], _ => none
  | y :: ys, x => if y = x then some 0 else (idxOf ys x).map (· + 1)

/-- Whether a registered version carries a migration function (the
`!schema || !schema.migration` test). -/
def hasMigration (reg : Registry) (v : String) : Bool :=
  match assocLookup reg v with
  | some s => s.migration.isSome
  | none => false

/-- `canMigrate` (lines 204-222): false when `from` does not compare
strictly before `to`; false when either endpoint is not a registry key;
otherwise true iff every version at index `fromIndex + 1 .. toIndex` of
the sorted version list has a migration function. -/
def canMigrateF (reg : Registry) (fromV toV : String) : Bool :=
  if 0 ≤ compareV fromV toV then false
  else
    let vs := versionsInOrder reg
    match idxOf vs fromV, idxOf vs toV with
    | some fi, some ti => ((vs.drop (fi + 1)).take (ti - fi)).all (hasMigration reg)
    | _, _ => false

/-- The distinguishable migration errors (`throw new Error(...)` with the
four distinct messages of lines 232, 243, 246 and 255).  The unknown
current version carries the raw tag value (a non-string tag is never
found among the string keys, matching `indexOf` returning -1). -/
inductive MigErr where
  | missingVersionTag
  | unknownVersion (tag : JVal)
  | unknownTarget (target : String)
  | noMigrationPath (fromV toV : String)

/-- Reading `data._v`. -/
def vTagRaw (d : JVal) : Option JVal :=
  match d with
  | .obj fs => lookupField fs "_v"
  | _ => none

/-- `versions.indexOf(currentVersion)` where the tag is a runtime value:
it matches only a string element equal to it. -/
def idxOfTag : List String → JVal → Option Nat
  | [], _ => none
  | y :: ys, t => if JVal.beq (.str y) t then some 0 else (idxOfTag ys t).map (· + 1)

/-- `migratedData._v = nextVersion`: stamp the intermediate version onto
the value (migration functions return objects; on a non-object the model
leaves the value unchanged). -/
def setVTag (d : JVal) (v : String) : JVal :=
  match d with
  | .obj fs => .obj (setField fs "_v" (.str v))
  | other => other

/-- The migration loop (lines 250-260): apply each step in version
order, stamping the version after each, failing with `NoMigrationPath`
naming the previous and the missing version the moment a step lacks a
migration function. -/
def migrateSteps (reg : Registry) : JVal → String → List String → Except MigErr JVal
  | d, _, [] => .ok d
  | d, prev, v :: rest =>
    match assocLookup reg v with
    | some s =>
      match s.migration with
      | some f => migrateSteps reg (setVTag (f d) v) v rest
      | none => .error (.noMigrationPath prev v)
    | none => .error (.noMigrationPath prev v)

/-- `migrate` (lines 230-263).  A falsy `data._v` (absent, empty string,
zero, false, null) raises the missing-version-tag error; an unknown
current or target version raises the corresponding unknown-version
error; otherwise the migrations at sorted indices
`currentIndex + 1 .. targetIndex` run in order (an empty range, which
happens whenever `currentIndex >= targetIndex`, returns the shallow copy
`\x7b...data\x7d` unchanged, the identity on the value). -/
def migrateF (reg : Registry) (data : JVal) (target : String) : Except MigErr JVal :=
  match vTagRaw data with
  | none => .error .missingVersionTag
  | some tv =>
    if falsy tv then .error .missingVersionTag
    else
      let vs := versionsInOrder reg
      match idxOfTag vs tv with
      | none => .error (.unknownVersion tv)
      | some ci =>
        match idxOf vs target with
        | none => .error (.unknownTarget target)
        | some ti =>
          migrateSteps reg data ((vs.drop ci).headD "") ((vs.drop (ci + 1)).take (ti - ci))

/-- Left fold of `joinPath` along a key list: the dotted path the differ
builds for a nested entry. -/
def joinAll (path : String) (p : List String) : String := p.foldl joinPath path

/-! ## A heap model of `applyDiff` (frame analysis)

`applyDiff` mutates JavaScript objects in place after an initial
`JSON.parse(JSON.stringify(target))` copy, and installs `change.value`
references from the diff into the result without copying them.  To state
what is and is not mutated or shared, objects get identities: a heap maps
addresses to nodes, object and array nodes hold addresses of their
children, and every JavaScript value is an address. -/

inductive HNode where
  | hnull
  | hstr (s : String)
  | hnum (n : Int)
  | hbool (b : Bool)
  | hobj (fields : List (String × Nat))
  | harr (elems : List Nat)
  deriving DecidableEq, Repr

structure Heap where
  mem : Nat → Option HNode
  next : Nat

def childAddrs : HNode → List Nat
  | .hobj fs => fs.map Prod.snd
  | .harr xs => xs
  | _ => []

/-- Heap validity: addresses at or beyond `next` are unallocated, and
children of allocated nodes are allocated before `next`. -/
def heapWF (h : Heap) : Prop :=
  (∀ a, h.next ≤ a → h.mem a = none) ∧
  (∀ a nd, h.mem a = some nd → ∀ b ∈ childAddrs nd, b < h.next)

def alloc (h : Heap) (nd : HNode) : Heap × Nat :=
  ({ mem := fun a => if a = h.next then some nd else h.mem a, next := h.next + 1 }, h.next)

def setMem (h : Heap) (a : Nat) (nd : HNode) : Heap :=
  { mem := fun b => if b = a then some nd else h.mem b, next := h.next }

/-- Reachability from an address through node children. -/
inductive Reach (h : Heap) : Nat → Nat → Prop
  | refl (a : Nat) : Reach h a a
  | step {a b c : Nat} {nd : HNode} :
      Reach h a b → h.mem b = some nd → c ∈ childAddrs nd → Reach h a c

mutual

/-- `JSON.parse(JSON.stringify(x))` at address `a`: a deep copy of the
reachable tree into fresh addresses.  Fuel bounds the recursion depth
(stringify of a cyclic structure throws, which `none` models; a dangling
address cannot occur in a well-formed runtime heap and is also `none`). -/
def copyNode : Nat → Heap → Nat → Option (Heap × Nat)
  | 0, _, _ => none
  | fuel + 1, h, a =>
    match h.mem a with
    | none => none
    | some (.hobj fs) =>
      match copyFields fuel h fs with
      | some (h2, nfs) => some (alloc h2 (.hobj nfs))
      | none => none
    | some (.harr xs) =>
      match copyElems fuel h xs with
      | some (h2, nxs) => some (alloc h2 (.harr nxs))
      | none => none
    | some nd => some (alloc h nd)
termination_by fuel _ _ => (fuel, 0)

def copyFields : Nat → Heap → List (String × Nat) → Option (Heap × List (String × Nat))
  | _, h, [] => some (h, [])
  | fuel, h, (k, a) :: rest =>
    match copyNode fuel h a with
    | some (h2, na) =>
      match copyFields fuel h2 rest with
      | some (h3, nrest) => some (h3, (k, na) :: nrest)
      | none => none
    | none => none
termination_by fuel _ fs => (fuel, fs.length + 1)

def copyElems : Nat → Heap → List Nat → Option (Heap × List Nat)
  | _, h, [] => some (h, [])
  | fuel, h, a :: rest =>
    match copyNode fuel h a with
    | some (h2, na) =>
      match copyElems fuel h2 rest with
      | some (h3, nrest) => some (h3, na :: nrest)
      | none => none
    | none => none
termination_by fuel _ xs => (fuel, xs.length + 1)

end

/-- Operation records as seen by `applyDiff`: it reads only
`change.type` and `change.value` (the `old` field of wire records is
never read), and values are heap addresses. -/
inductive OpH where
  | addH (value : Nat)
  | updH (value : Nat)
  | delH
  deriving DecidableEq, Repr

def opValueAddr : OpH → Option Nat
  | .addH v => some v
  | .updH v => some v
  | .delH => none

def setAssocN : List (String × Nat) → String → Nat → List (String × Nat)
  | [], k, v => [(k, v)]
  | (k', v') :: rest, k, v =>
    if k' = k then (k, v) :: rest else (k', v') :: setAssocN rest k v

def removeAssocN : List (String × Nat) → String → List (String × Nat)
  | [], _ => []
  | (k', v') :: rest, k =>
    if k' = k then rest else (k', v') :: removeAssocN rest k

/-- Truthiness of the value at an address. -/
def nodeFalsy (h : Heap) (a : Nat) : Bool :=
  match h.mem a with
  | some .hnull => true
  | some (.hbool b) => !b
  | some (.hnum n) => n == 0
  | some (.hstr s) => s == ""
  | _ => false

/-- The walk-and-apply of one diff entry (part_010 lines 86-107) on the
heap: walk the intermediate segments reading `current[part]`, replacing a
falsy or absent value by a freshly allocated `\x7b\x7d` (mutating the
node at `current`), then apply the operation at the last key.  As in
`applyEntry`, navigation into a primitive is the strict-mode `TypeError`
and navigation into an array is unsupported-by-the-model; both are
`none`. -/
def navApply (h : Heap) (cur : Nat) : List String → String → OpH → Option Heap
  | [], lastKey, op =>
    match h.mem cur with
    | some (.hobj fs) =>
      match op with
      | .addH v => some (setMem h cur (.hobj (setAssocN fs lastKey v)))
      | .updH v => some (setMem h cur (.hobj (setAssocN fs lastKey v)))
      | .delH => some (setMem h cur (.hobj (removeAssocN fs lastKey)))
    | _ => none
  | p :: rest, lastKey, op =>
    match h.mem cur with
    | some (.hobj fs) =>
      match assocLookup fs p with
      | some child =>
        if nodeFalsy h child then
          let al := alloc h (.hobj [])
          navApply (setMem al.1 cur (.hobj (setAssocN fs p al.2))) al.2 rest lastKey op
        else
          navApply h child rest lastKey op
      | none =>
        let al := alloc h (.hobj [])
        navApply (setMem al.1 cur (.hobj (setAssocN fs p al.2))) al.2 rest lastKey op
    | _ => none

/-- One diff entry: split the path, pop the last segment, walk and
apply. -/
def applyEntryH (h : Heap) (root : Nat) (path : String) (op : OpH) : Option Heap :=
  match (splitDot path).reverse with
  | [] => none
  | lastKey :: revInit => navApply h root revInit.reverse lastKey op

/-- `applyDiff` on the heap: deep-copy the target, then apply the
entries in order to the copy; the result is the copy's address. -/
def applyDiffH (h : Heap) (target : Nat) (diff : List (String × OpH))
    (copyFuel : Nat) : Option (Heap × Nat) :=
  match copyNode copyFuel h target with
  | none => none
  | some (h1, root) =>
    match diff.foldl (fun acc e => acc.bind (fun hh => applyEntryH hh root e.1 e.2)) (some h1) with
    | some h2 => some (h2, root)
    | none => none

/-- A set of addresses closed under following node children: reachability
from inside the set stays inside it.  Used to delimit the region the
entry-application phase may touch. -/
def ClosedSet (h : Heap) (S : Nat → Prop) : Prop :=
  ∀ a, S a → ∀ nd, h.mem a = some nd → ∀ b ∈ childAddrs nd, S b

/-- Growth of a heap by pure allocation above the base heap's `next`:
low memory is untouched, `next` does not decrease, and nodes written in
the new region have their children in the new region of the base. -/
def heapGrow (h h2 : Heap) : Prop :=
  (∀ b, b < h.next → h2.mem b = h.mem b) ∧ h.next ≤ h2.next ∧
  (∀ b, h2.next ≤ b → h2.mem b = none) ∧
  (∀ b nd, h.next ≤ b → h2.mem b = some nd →
    ∀ c ∈ childAddrs nd, h.next ≤ c ∧ c < h2.next)

/-- Concrete heap for the aliasing counterexample: the snapshot at
address 0 is `{x: {}}` with its inner object at address 1; address 2
holds the number 1 and plays the diff value. -/
def cxHeap : Heap :=
  { mem := fun a =>
      if a = 0 then some (.hobj [("x", 1)])
      else if a = 1 then some (.hobj [])
      else if a = 2 then some (.hnum 1)
      else none,
    next := 3 }

/-- Diff that first installs address 1 (aliasing the snapshot's inner
object) under key `a`, then writes through it via path `a.b`. -/
def cxDiff : List (String × OpH) := [("a", .addH 1), ("a.b", .addH 2)]

/-- Concrete heap for the no-aliasing instance: snapshot `{x: 5}` at
address 0 with its number node at address 1, and an unrelated number at
address 2 used as the diff value. -/
def whHeap : Heap :=
  { mem := fun a =>
      if a = 0 then some (.hobj [("x", 1)])
      else if a = 1 then some (.hnum 5)
      else if a = 2 then some (.hnum 7)
      else none,
    next := 3 }

def whDiff : List (String × OpH) := [("y", .addH 2)]

/-! ## Basic lemmas -/

theorem JVal.beq_iff_eq : ∀ a b : JVal, (JVal.beq a b = true) ↔ a = b := by
  apply JVal.beq.induct
    (fun a b => ((JVal.beq a b = true) ↔ a = b))
    (fun fs gs => ((beqFields fs gs = true) ↔ fs = gs))
    (fun xs ys => ((beqList xs ys = true) ↔ xs = ys))
  case case1 => simp [JVal.beq]
  case case2 => intro a b; simp [JVal.beq]
  case case3 => intro a b; simp [JVal.beq]
  case case4 => intro a b; simp [JVal.beq]
  case case5 => intro xs ys ih; simpa [JVal.beq] using ih
  case case6 => intro fs gs ih; simpa [JVal.beq] using ih
  case case7 =>
    intro t x hnull hstr hnum hbool harr hobj
    cases t <;> cases x <;> simp [JVal.beq] <;>
      first
        | exact (hnull rfl rfl).elim
        | exact (hstr _ _ rfl rfl).elim
        | exact (hnum _ _ rfl rfl).elim
        | exact (hbool _ _ rfl rfl).elim
        | exact (harr _ _ rfl rfl).elim
        | exact (hobj _ _ rfl rfl).elim
  case case8 => simp [beqList]
  case case9 => intro x xs y ys ih1 ih2; simp [beqList, ih1, ih2]
  case case10 =>
    intro t x hnil hcons
    cases t with
    | nil =>
      cases x with
      | nil => exact (hnil rfl rfl).elim
      | cons y ys => simp [beqList]
    | cons z zs =>
      cases x with
      | nil => simp [beqList]
      | cons y ys => exact (hcons z zs y ys rfl rfl).elim
  case case11 => simp [beqFields]
  case case12 => intro k v fs l w gs ih1 ih2; simp [beqFields, ih1, ih2]
  case case13 =>
    intro t x hnil hcons
    cases t with
    | nil =>
      cases x with
      | nil => exact (hnil rfl rfl).elim
      | cons q qs => simp [beqFields]
    | cons p ps =>
      cases x with
      | nil => simp [beqFields]
      | cons q qs => exact (hcons p.1 p.2 ps q.1 q.2 qs (by simp) (by simp)).elim

instance : DecidableEq JVal := fun a b => decidable_of_iff _ (JVal.beq_iff_eq a b)

theorem assocLookup_append_single {α : Type} (l : List (String × α)) (k : String) (v : α)
    (cid : String) (hne : cid ≠ k) :
    assocLookup (l ++ [(k, v)]) cid = assocLookup l cid := by
  induction l with
  | nil => simp [assocLookup, Ne.symm hne]
  | cons p rest ih =>
    simp only [List.cons_append, assocLookup]
    split <;> simp_all

theorem assocLookup_append_single_self {α : Type} (l : List (String × α)) (k : String) (v : α)
    (habs : assocLookup l k = none) :
    assocLookup (l ++ [(k, v)]) k = some v := by
  induction l with
  | nil => simp [assocLookup]
  | cons p rest ih =>
    simp only [assocLookup] at habs ⊢
    split at habs
    · cases habs
    · simp_all [assocLookup]

theorem assocLookup_setClient_self (l : List (String × MobileClient)) (k : String)
    (c : MobileClient) : assocLookup (setClient l k c) k = some c := by
  induction l with
  | nil => simp [setClient, assocLookup]
  | cons p rest ih =>
    simp only [setClient]
    split <;> simp_all [assocLookup]

theorem assocLookup_setClient_ne (l : List (String × MobileClient)) (k cid : String)
    (c : MobileClient) (hne : cid ≠ k) :
    assocLookup (setClient l k c) cid = assocLookup l cid := by
  induction l with
  | nil => simp [setClient, assocLookup, Ne.symm hne]
  | cons p rest ih =>
    simp only [setClient]
    split
    · next heq => subst heq; simp [assocLookup, Ne.symm hne]
    · simp_all [assocLookup]

/-! ## C7: session-code validation -/

/-- C7: local pre-transport session-code validation accepts
`NYC-ABC-123` and rejects `NYC-AB-123`; a segment count other than three
or an unrecognized region is a validation failure. -/
theorem C7_session_code_validation :
    sessionCodeAccepted "NYC-ABC-123" = true ∧
    sessionCodeAccepted "NYC-AB-123" = false ∧
    (∀ s : String, (splitOnChar '-' s).length ≠ 3 → sessionCodeAccepted s = false) ∧
    (∀ s p0 p1 p2 : String, splitOnChar '-' s = [p0, p1, p2] →
      assocLookup regionUrls (lowerStr p0) = none → sessionCodeAccepted s = false) := by
  refine ⟨by decide, by decide, ?_, ?_⟩
  · intro s h
    have hv : (getServerUrl s).isOk = false := by
      unfold getServerUrl
      split
      · next p0 p1 p2 heq => exact absurd (by simp [heq]) h
      · simp [Except.isOk, Except.toBool]
    simp [sessionCodeAccepted, hv]
  · intro s p0 p1 p2 hsplit hreg
    have hv : (getServerUrl s).isOk = false := by
      unfold getServerUrl
      rw [hsplit]
      simp only [hreg]
      simp [Except.isOk, Except.toBool]
    simp [sessionCodeAccepted, hv]

/-- C7 witness: a recognized-looking code with an unknown region is
rejected, via the theorem's last conjunct. -/
theorem C7_session_code_validation_witness : sessionCodeAccepted "ZZZ-ABC-123" = false :=
  C7_session_code_validation.2.2.2 "ZZZ-ABC-123" "ZZZ" "ABC" "123" (by decide) (by decide)

/-! ## C4: terminal close codes -/

/-- C4: each terminal close code (1000 normal closure, 4000 session not
found, 4001 session expired, 4002 malformed code, 4003 version mismatch)
drives the connection state to Disconnected with no reconnect scheduled,
and clears the persisted session record exactly for 4000 and 4001. -/
theorem C4_terminal_close_codes (code attempts : Nat)
    (h : code ∈ [1000, 4000, 4001, 4002, 4003]) :
    (onCloseF attempts 3 1000 code).state = .disconnected ∧
    (onCloseF attempts 3 1000 code).scheduledDelay = none ∧
    ((onCloseF attempts 3 1000 code).sessionCleared = (code == 4000 || code == 4001)) := by
  fin_cases h <;> simp [onCloseF]

/-- C4 witness at close code 4000. -/
theorem C4_terminal_close_codes_witness :
    (onCloseF 0 3 1000 4000).state = .disconnected ∧
    (onCloseF 0 3 1000 4000).scheduledDelay = none ∧
    ((onCloseF 0 3 1000 4000).sessionCleared = (4000 == 4000 || 4000 == 4001)) :=
  C4_terminal_close_codes 4000 0 (by decide)

/-! ## C5: reconnect bound and backoff -/

theorem runCloses_exhausted : ∀ m, runCloses 3 m = [] := by
  intro m
  induction m with
  | zero => rfl
  | succ n ih => simpa [runCloses, onCloseF] using ih

/-- C5: from a fresh connection, any number of consecutive unexpected
closures schedules at most three reconnect attempts, and the k-th
attempt (1-based) is scheduled with delay 1000 * 2 ^ (k - 1)
milliseconds: the scheduled delays are exactly the prefix
[1000, 2000, 4000] of length min n 3. -/
theorem C5_reconnect_bound (n : Nat) :
    runCloses 0 n = (List.range (min n 3)).map (fun k => 1000 * 2 ^ k) ∧
    (runCloses 0 n).length ≤ 3 := by
  have main : runCloses 0 n = (List.range (min n 3)).map (fun k => 1000 * 2 ^ k) := by
    match n with
    | 0 => decide
    | 1 => decide
    | 2 => decide
    | m + 3 =>
      have h3 : min (m + 3) 3 = 3 := by omega
      rw [h3]
      show runCloses 0 (m + 3) = [1000, 2000, 4000]
      simp only [runCloses, onCloseF, attemptReconnectF]
      norm_num [runCloses_exhausted]
  refine ⟨main, ?_⟩
  rw [main]
  simp [min_le_right]

/-! ## C2: state-machine phase order -/

/-- C2 counterexample: a single inbound SETUP:ACTOR:ACK takes the global
state from Disconnected straight to Play; the trace visits none of
Joining, Joined, Init, Setup, so reaching Play does not require passing
through the phases in order. -/
theorem C2_counterexample :
    (runTrace [InEvent.setupActorAck]).getLast? = some ConnState.play ∧
    ConnState.joining ∉ runTrace [InEvent.setupActorAck] ∧
    ConnState.joined ∉ runTrace [InEvent.setupActorAck] ∧
    ConnState.init ∉ runTrace [InEvent.setupActorAck] ∧
    ConnState.setup ∉ runTrace [InEvent.setupActorAck] := by
  decide

/-- C2 amended: the nominal handshake sequence (connect, PRE:JOIN:ACK,
INIT:HELO with matching schema, SETUP:ACTOR:ACK) drives the global state
through Joining, Joined, Init, Setup, Play in exactly that order; but
because every handler assigns its target state unconditionally, other
inbound sequences (a resume naming Play, or an out-of-order actor
acknowledgment) reach Play without passing through the phases, as the
counterexample shows. -/
theorem C2_nominal_phase_order :
    runTrace [InEvent.connect, InEvent.preJoinAck, InEvent.initHelo true,
      InEvent.setupActorAck] =
      [ConnState.joining, ConnState.joined, ConnState.init, ConnState.setup,
       ConnState.play] ∧
    runTrace [InEvent.connect, InEvent.preJoinResume ConnState.play] =
      [ConnState.joining, ConnState.play] := by
  decide

/-! ## C6: the INIT:HELO schema gate -/

/-- C6: on a schema mismatch `handleInitHelo` sends exactly one
INIT:DENY carrying a reason and details, performs no global-state
update, leaves every other tracked remote client untouched, and does not
advance the sender (a tracked sender keeps its record unchanged; an
unknown sender is recorded fresh in its initial Joined phase); on a
match it sends its own capabilities and an INIT:HELO:ACK naming the
negotiated schema and the feature set, records the sender in phase Init
with the negotiated data, and advances the global state to Init and then
Setup. -/
theorem C6_init_helo_schema_gate (clients : List (String × MobileClient)) (fromId : String)
    (caps : Capabilities) (now : Nat) :
    (caps.schemaVersion ≠ ourSchema →
      (handleInitHeloF clients fromId caps now).sent =
        [.initDeny fromId "SCHEMA_MISMATCH"
          ("Foundry schema " ++ ourSchema ++ " incompatible with mobile " ++
            caps.schemaVersion)] ∧
      (handleInitHeloF clients fromId caps now).stateUpdates = [] ∧
      (∀ cid, cid ≠ fromId →
        assocLookup (handleInitHeloF clients fromId caps now).clients cid =
          assocLookup clients cid) ∧
      (∀ c, assocLookup clients fromId = some c →
        assocLookup (handleInitHeloF clients fromId caps now).clients fromId = some c) ∧
      (assocLookup clients fromId = none →
        assocLookup (handleInitHeloF clients fromId caps now).clients fromId =
          some (newMobileClient fromId now))) ∧
    (caps.schemaVersion = ourSchema →
      (handleInitHeloF clients fromId caps now).sent =
        [.initHeloMsg fromId ourSchema ["combat", "spells", "items", "vision"],
         .initHeloAck fromId ourSchema caps.supportedFeatures] ∧
      (handleInitHeloF clients fromId caps now).stateUpdates = [.init, .setup] ∧
      (∀ cid, cid ≠ fromId →
        assocLookup (handleInitHeloF clients fromId caps now).clients cid =
          assocLookup clients cid) ∧
      (∀ c, assocLookup clients fromId = some c →
        assocLookup (handleInitHeloF clients fromId caps now).clients fromId =
          some { c with state := .init, schemaVersion := caps.schemaVersion,
                        enabledFeatures := caps.supportedFeatures.getD [],
                        lastActivity := now })) := by
  constructor
  · intro hne
    unfold handleInitHeloF
    rw [if_pos hne]
    refine ⟨rfl, rfl, ?_, ?_, ?_⟩
    · intro cid hcid
      cases hl : assocLookup clients fromId with
      | some c => simp [hl]
      | none => simp only [hl]; exact assocLookup_append_single clients fromId _ cid hcid
    · intro c hc
      simp [hc]
    · intro hn
      simp only [hn]
      exact assocLookup_append_single_self clients fromId _ hn
  · intro heq
    unfold handleInitHeloF
    rw [if_neg (by simp [heq])]
    cases hl : assocLookup clients fromId with
    | some c =>
      simp only [hl]
      refine ⟨by trivial, by trivial, ?_, ?_⟩
      · intro cid hcid
        exact assocLookup_setClient_ne clients fromId cid _ hcid
      · intro c2 hc2
        cases hc2
        exact assocLookup_setClient_self clients fromId _
    | none =>
      simp only [hl]
      have hself : assocLookup (clients ++ [(fromId, newMobileClient fromId now)]) fromId =
          some (newMobileClient fromId now) :=
        assocLookup_append_single_self clients fromId _ hl
      simp only [hself]
      refine ⟨by trivial, by trivial, ?_, ?_⟩
      · intro cid hcid
        rw [assocLookup_setClient_ne _ fromId cid _ hcid]
        exact assocLookup_append_single clients fromId _ cid hcid
      · intro c2 hc2
        simp at hc2

/-- C6 witness: a mismatching hello from an untracked client, through
the mismatch half of the theorem. -/
theorem C6_init_helo_schema_gate_witness :
    (handleInitHeloF [] "m1" { schemaVersion := "2.0.0", supportedFeatures := none } 5).sent =
      [.initDeny "m1" "SCHEMA_MISMATCH"
        ("Foundry schema " ++ ourSchema ++ " incompatible with mobile " ++ "2.0.0")] ∧
    (handleInitHeloF [] "m1" { schemaVersion := "2.0.0", supportedFeatures := none }
      5).stateUpdates = [] :=
  let r := (C6_init_helo_schema_gate [] "m1"
    { schemaVersion := "2.0.0", supportedFeatures := none } 5).1 (by decide)
  ⟨r.1, r.2.1⟩

/-! ## C8: the concrete hp diff -/

/-- C8 counterexample: the diff of the two hp snapshots has exactly the
single entry at `hp.value` as claimed, but its operation record does not
have the claimed shape with a `previousValue` field: the record the
differ builds (and which is serialized onto the wire) stores the
previous value under the key `old`, and has no `previousValue` key. -/
theorem C8_counterexample :
    deepDiff (JVal.obj [("hp", .obj [("value", .num 10), ("max", .num 10)])])
        (JVal.obj [("hp", .obj [("value", .num 7), ("max", .num 10)])]) =
      .entries [("hp.value", .update (.num 10) (.num 7))] ∧
    lookupField (fieldsOf (opToJson (.update (.num 10) (.num 7)))) "previousValue" = none ∧
    lookupField (fieldsOf (opToJson (.update (.num 10) (.num 7)))) "old" = some (.num 10) := by
  refine ⟨?_, by simp [opToJson, fieldsOf, lookupField], by simp [opToJson, fieldsOf, lookupField]⟩
  simp [deepDiff, isPrim, isArr, fieldsOf, diffFields, diffKeys, diffEntry, dedupFirst,
    dedupGo, keysOf, lookupField, joinPath, JVal.beq, beqFields, beqList]

/-- C8 amended: the diff of hp value 10 to 7 (max unchanged) is exactly
one entry, keyed by `hp.value`, of type update with previous value 10
and new value 7 — the previous value carried under the key `old` (record
shape type / old / value), and no entry for `hp.max`. -/
theorem C8_diff_single_update_entry :
    deepDiff (JVal.obj [("hp", .obj [("value", .num 10), ("max", .num 10)])])
        (JVal.obj [("hp", .obj [("value", .num 7), ("max", .num 10)])]) =
      .entries [("hp.value", .update (.num 10) (.num 7))] ∧
    opToJson (.update (.num 10) (.num 7)) =
      .obj [("type", .str "update"), ("old", .num 10), ("value", .num 7)] := by
  refine ⟨?_, rfl⟩
  simp [deepDiff, isPrim, isArr, fieldsOf, diffFields, diffKeys, diffEntry, dedupFirst,
    dedupGo, keysOf, lookupField, joinPath, JVal.beq, beqFields, beqList]

/-! ## C9: the sync orchestrator -/

/-- C9: for a processed qualifying change with a successful extraction
(connected, actor resolvable): the cached last-sent snapshot is replaced
by the newly extracted one in every case; with no prior snapshot a full
sync is sent; with a prior snapshot an update message is sent exactly
when the computed diff is non-empty. -/
theorem C9_sync_orchestrator (characterData : List (String × JVal)) (actorId : String)
    (data : JVal) :
    ((handleActorUpdateF true true characterData actorId (some data)).1 =
      setSnap characterData actorId data) ∧
    (assocLookup characterData actorId = none →
      (handleActorUpdateF true true characterData actorId (some data)).2 =
        some (.fullSync actorId)) ∧
    (∀ last, assocLookup characterData actorId = some last →
      ((handleActorUpdateF true true characterData actorId (some data)).2 =
          some (.updateMsg actorId (deepDiff last data)) ↔
        0 < diffKeyCount (deepDiff last data))) := by
  refine ⟨?_, ?_, ?_⟩
  · unfold handleActorUpdateF
    cases hl : assocLookup characterData actorId with
    | some last => simp only [hl]; split <;> rfl
    | none => simp only [hl]; split <;> rfl
  · intro hl
    simp [handleActorUpdateF, hl]
  · intro last hl
    simp only [handleActorUpdateF, hl]
    constructor
    · intro hsent
      by_contra hc
      rw [if_neg (by simp [hc])] at hsent
      cases hsent
    · intro hpos
      rw [if_pos ⟨hpos, by trivial⟩]

/-- C9 witness: first sight of an actor sends a full sync, via the
second conjunct at an empty cache. -/
theorem C9_sync_orchestrator_witness :
    (handleActorUpdateF true true [] "a1" (some (JVal.obj []))).2 =
      some (.fullSync "a1") :=
  (C9_sync_orchestrator [] "a1" (JVal.obj [])).2.1 (by rfl)

/-! ## C3: the schema registry -/

theorem compareV_self (a : String) : compareV a a = 0 := by
  simp [compareV]

theorem compareV_neg (a b : String) : compareV b a = -compareV a b := by
  unfold compareV
  split_ifs <;> omega

theorem idxOf_eq_none_iff (l : List String) (x : String) : idxOf l x = none ↔ x ∉ l := by
  induction l with
  | nil => simp [idxOf]
  | cons y ys ih =>
    simp only [idxOf]
    split
    · next h => subst h; simp
    · next h =>
      rw [List.mem_cons]
      simp [Option.map_eq_none', ih, Ne.symm h]

theorem idxOf_getElem? (l : List String) (x : String) (i : Nat) (h : idxOf l x = some i) :
    l[i]? = some x := by
  induction l generalizing i with
  | nil => simp [idxOf] at h
  | cons y ys ih =>
    simp only [idxOf] at h
    split at h
    · next heq => cases h; simp [heq]
    · next hne =>
      cases hmap : idxOf ys x with
      | none => rw [hmap] at h; simp at h
      | some j =>
        rw [hmap] at h
        simp only [Option.map_some'] at h
        cases h
        simpa using ih j hmap

theorem idxOf_lt_length {l : List String} {x : String} {i : Nat} (h : idxOf l x = some i) :
    i < l.length :=
  (List.getElem?_eq_some_iff.mp (idxOf_getElem? l x i h)).1

theorem mem_exists_idxOf {l : List String} {x : String} (hx : x ∈ l) :
    ∃ i, idxOf l x = some i := by
  cases h : idxOf l x with
  | some i => exact ⟨i, rfl⟩
  | none => exact absurd hx ((idxOf_eq_none_iff l x).mp h)

theorem insertV_append (x : String) (l : List String) (h : ∀ y ∈ l, compareV y x ≤ 0) :
    insertV x l = l ++ [x] := by
  induction l with
  | nil => rfl
  | cons y ys ih =>
    simp only [insertV]
    rw [if_pos (h y (List.mem_cons_self y ys))]
    simp [ih (fun z hz => h z (List.mem_cons_of_mem y hz))]

theorem sortVersions_go (l : List String) :
    ∀ p : List String, (p ++ l).Pairwise (fun a b => compareV a b < 0) →
      l.foldl (fun acc x => insertV x acc) p = p ++ l := by
  induction l with
  | nil => intro p _; simp
  | cons x xs ih =>
    intro p h
    simp only [List.foldl_cons]
    have hx : ∀ y ∈ p, compareV y x ≤ 0 := by
      intro y hy
      have := (List.pairwise_append.mp h).2.2 y hy x (List.mem_cons_self x xs)
      omega
    rw [insertV_append x p hx]
    have h2 : ((p ++ [x]) ++ xs).Pairwise (fun a b => compareV a b < 0) := by
      rw [List.append_assoc]
      exact h
    have := ih (p ++ [x]) h2
    rw [this, List.append_assoc]
    rfl

/-- With the registry keys already strictly ordered by the version
comparator (the documented registry invariant), the sort of
`getVersionsInOrder` is the identity. -/
theorem versionsInOrder_sorted_id (reg : Registry)
    (h : (reg.map Prod.fst).Pairwise (fun a b => compareV a b < 0)) :
    versionsInOrder reg = reg.map Prod.fst := by
  unfold versionsInOrder sortVersions
  simpa using sortVersions_go (reg.map Prod.fst) [] (by simpa using h)

theorem idxOfTag_str (l : List String) (s : String) : idxOfTag l (.str s) = idxOf l s := by
  induction l with
  | nil => rfl
  | cons y ys ih =>
    simp only [idxOfTag, idxOf, JVal.beq, beq_iff_eq]
    split <;> simp_all

theorem migrateSteps_isOk_iff (reg : Registry) (vs : List String) :
    ∀ d prev, (migrateSteps reg d prev vs).isOk = true ↔ vs.all (hasMigration reg) = true := by
  induction vs with
  | nil => intro d prev; simp [migrateSteps, Except.isOk, Except.toBool]
  | cons v rest ih =>
    intro d prev
    cases hl : assocLookup reg v with
    | none => simp [migrateSteps, hasMigration, hl, Except.isOk, Except.toBool]
    | some s =>
      cases hm : s.migration with
      | none => simp [migrateSteps, hasMigration, hl, hm, Except.isOk, Except.toBool]
      | some f => simp [migrateSteps, hasMigration, hl, hm, ih]

theorem migrateSteps_err_shape (reg : Registry) (vs : List String) :
    ∀ d prev, ¬ vs.all (hasMigration reg) = true →
      ∃ a b, migrateSteps reg d prev vs = .error (.noMigrationPath a b) := by
  induction vs with
  | nil => intro d prev h; simp at h
  | cons v rest ih =>
    intro d prev h
    cases hl : assocLookup reg v with
    | none => exact ⟨prev, v, by simp [migrateSteps, hl]⟩
    | some s =>
      cases hm : s.migration with
      | none => exact ⟨prev, v, by simp [migrateSteps, hl, hm]⟩
      | some f =>
        have hrest : ¬ rest.all (hasMigration reg) = true := by
          simp only [List.all_cons, hasMigration, hl, hm] at h
          simpa using h
        obtain ⟨a, b, hab⟩ := ih (setVTag (f d) v) v hrest
        exact ⟨a, b, by simp [migrateSteps, hl, hm, hab]⟩

/-- Membership in the migration slice `versions[fromIndex+1 .. toIndex]`
of a strictly sorted version list is exactly: registered, strictly after
`from`, and at or before `to` in version order. -/
theorem mem_slice_iff {keys : List String}
    (hsort : keys.Pairwise (fun a b => compareV a b < 0))
    {fi ti : Nat} {fromV toV : String}
    (hf : keys[fi]? = some fromV) (ht : keys[ti]? = some toV)
    (v : String) :
    v ∈ (keys.drop (fi + 1)).take (ti - fi) ↔
      v ∈ keys ∧ compareV fromV v < 0 ∧ compareV v toV ≤ 0 := by
  obtain ⟨hfi, hfe⟩ := List.getElem?_eq_some_iff.mp hf
  obtain ⟨hti, hte⟩ := List.getElem?_eq_some_iff.mp ht
  have hpg := List.pairwise_iff_getElem.mp hsort
  constructor
  · intro hv
    obtain ⟨m, hm⟩ := List.mem_iff_getElem?.mp hv
    rw [List.getElem?_take] at hm
    split at hm
    · next hmlt =>
      rw [List.getElem?_drop] at hm
      obtain ⟨hj, hje⟩ := List.getElem?_eq_some_iff.mp hm
      have hjabs : fi + 1 + m < keys.length := hj
      have h1 : compareV fromV v < 0 := by
        have := hpg fi (fi + 1 + m) hfi hjabs (by omega)
        rwa [hfe, hje] at this
      have h2 : compareV v toV ≤ 0 := by
        rcases Nat.lt_trichotomy (fi + 1 + m) ti with hlt | heq | hgt
        · have := hpg (fi + 1 + m) ti hjabs hti hlt
          rw [hje, hte] at this
          omega
        · subst heq
          have hvt : v = toV := by rw [← hje, hte]
          simp [hvt, compareV_self]
        · omega
      exact ⟨by rw [← hje]; exact List.getElem_mem _, h1, h2⟩
    · cases hm
  · rintro ⟨hv, h1, h2⟩
    obtain ⟨j, hj, hje⟩ := List.mem_iff_getElem.mp hv
    have hfij : fi < j := by
      rcases Nat.lt_trichotomy j fi with hlt | heq | hgt
      · have := hpg j fi hj hfi hlt
        rw [hje, hfe] at this
        rw [compareV_neg v fromV] at h1
        omega
      · subst heq
        rw [hje] at hfe
        subst hfe
        rw [compareV_self] at h1
        omega
      · exact hgt
    have hjti : j ≤ ti := by
      by_contra hgt
      push_neg at hgt
      have := hpg ti j hti hj hgt
      rw [hte, hje] at this
      rw [compareV_neg toV v] at h2
      omega
    rw [List.mem_iff_getElem?]
    refine ⟨j - (fi + 1), ?_⟩
    rw [List.getElem?_take, if_pos (by omega), List.getElem?_drop]
    have : fi + 1 + (j - (fi + 1)) = j := by omega
    rw [this, List.getElem?_eq_some_iff]
    exact ⟨hj, hje⟩

/-- C3 counterexample: on the shipped registry, `canMigrate` from
"1.0.0" to itself is false (the comparator guard), yet `migrate` of data
tagged "1.0.0" targeting "1.0.0" succeeds, returning the value
unchanged: migrate does not succeed exactly when canMigrate is true. -/
theorem C3_counterexample :
    canMigrateF theSchemas "1.0.0" "1.0.0" = false ∧
    migrateF theSchemas (JVal.obj [("_v", .str "1.0.0")]) "1.0.0" =
      .ok (JVal.obj [("_v", .str "1.0.0")]) := by
  exact ⟨rfl, rfl⟩

/-- C3 amended: over a registry whose versions are strictly ordered by
the version comparator (the documented registry invariant),
`canMigrate(from, to)` is true iff both versions are registered, `from`
strictly precedes `to`, and every registered version strictly after
`from` up to and including `to` defines a migration function; `migrate`
on data tagged `from` succeeds iff both endpoints are registered and
either `canMigrate(from, to)` holds or `from` does not strictly precede
`to` (an empty migration range returns the value unchanged, so
same-version and backward targets succeed trivially even though
canMigrate is false there, as the counterexample shows); each failure is
a distinguishable error — missing version tag, unknown current version,
unknown target version, or broken migration chain — and an error never
carries a partially migrated value. -/
theorem C3_migration_totality (reg : Registry) (data : JVal) (fromV toV : String)
    (hs : (reg.map Prod.fst).Pairwise (fun a b => compareV a b < 0))
    (htag : vTagRaw data = some (.str fromV)) (hne : fromV ≠ "") :
    (canMigrateF reg fromV toV = true ↔
      fromV ∈ reg.map Prod.fst ∧ toV ∈ reg.map Prod.fst ∧ compareV fromV toV < 0 ∧
        ∀ v ∈ reg.map Prod.fst, compareV fromV v < 0 → compareV v toV ≤ 0 →
          hasMigration reg v = true) ∧
    ((migrateF reg data toV).isOk = true ↔
      fromV ∈ reg.map Prod.fst ∧ toV ∈ reg.map Prod.fst ∧
        (canMigrateF reg fromV toV = true ∨ 0 ≤ compareV fromV toV)) ∧
    (∀ d2, vTagRaw d2 = none → migrateF reg d2 toV = .error .missingVersionTag) ∧
    (fromV ∉ reg.map Prod.fst →
      migrateF reg data toV = .error (.unknownVersion (.str fromV))) ∧
    (fromV ∈ reg.map Prod.fst → toV ∉ reg.map Prod.fst →
      migrateF reg data toV = .error (.unknownTarget toV)) ∧
    (fromV ∈ reg.map Prod.fst → toV ∈ reg.map Prod.fst → compareV fromV toV < 0 →
      canMigrateF reg fromV toV = false →
      ∃ a b, migrateF reg data toV = .error (.noMigrationPath a b)) := by
  have hvs := versionsInOrder_sorted_id reg hs
  have hfls : falsy (.str fromV) = false := by
    simp [falsy, hne]
  have hpg := List.pairwise_iff_getElem.mp hs
  refine ⟨?_, ?_, ?_, ?_, ?_, ?_⟩
  · -- canMigrate characterization
    by_cases hcmp : 0 ≤ compareV fromV toV
    · simp only [canMigrateF, hvs]
      rw [if_pos hcmp]
      simp only [Bool.false_eq_true, false_iff]
      rintro ⟨-, -, hlt, -⟩
      omega
    · push_neg at hcmp
      simp only [canMigrateF, hvs]
      rw [if_neg (by omega)]
      cases hfi : idxOf (reg.map Prod.fst) fromV with
      | none =>
        simp only [Bool.false_eq_true, false_iff]
        rintro ⟨hmem, -, -, -⟩
        exact (idxOf_eq_none_iff _ _).mp hfi hmem
      | some fi =>
        cases hti : idxOf (reg.map Prod.fst) toV with
        | none =>
          simp only [Bool.false_eq_true, false_iff]
          rintro ⟨-, hmem, -, -⟩
          exact (idxOf_eq_none_iff _ _).mp hti hmem
        | some ti =>
          have hfget := idxOf_getElem? _ _ _ hfi
          have htget := idxOf_getElem? _ _ _ hti
          rw [List.all_eq_true]
          constructor
          · intro hall
            refine ⟨List.mem_iff_getElem?.mpr ⟨fi, hfget⟩,
              List.mem_iff_getElem?.mpr ⟨ti, htget⟩, hcmp, ?_⟩
            intro v hv h1 h2
            exact hall v ((mem_slice_iff hs hfget htget v).mpr ⟨hv, h1, h2⟩)
          · rintro ⟨-, -, -, hall⟩ v hv
            obtain ⟨hmem, h1, h2⟩ := (mem_slice_iff hs hfget htget v).mp hv
            exact hall v hmem h1 h2
  · -- migrate success characterization
    simp only [migrateF, htag, hfls, Bool.false_eq_true, if_false, idxOfTag_str, hvs]
    cases hfi : idxOf (reg.map Prod.fst) fromV with
    | none =>
      simp only [Except.isOk, Except.toBool, Bool.false_eq_true, false_iff]
      rintro ⟨hmem, -, -⟩
      exact (idxOf_eq_none_iff _ _).mp hfi hmem
    | some fi =>
      cases hti : idxOf (reg.map Prod.fst) toV with
      | none =>
        simp only [Except.isOk, Except.toBool, Bool.false_eq_true, false_iff]
        rintro ⟨-, hmem, -⟩
        exact (idxOf_eq_none_iff _ _).mp hti hmem
      | some ti =>
        have hfget := idxOf_getElem? _ _ _ hfi
        have htget := idxOf_getElem? _ _ _ hti
        have hfmem : fromV ∈ reg.map Prod.fst := List.mem_iff_getElem?.mpr ⟨fi, hfget⟩
        have htmem : toV ∈ reg.map Prod.fst := List.mem_iff_getElem?.mpr ⟨ti, htget⟩
        rw [migrateSteps_isOk_iff]
        by_cases hcmp : 0 ≤ compareV fromV toV
        · have htile : ti ≤ fi := by
            by_contra hlt
            push_neg at hlt
            have := hpg fi ti (idxOf_lt_length hfi) (idxOf_lt_length hti) hlt
            rw [(List.getElem?_eq_some_iff.mp hfget).2,
              (List.getElem?_eq_some_iff.mp htget).2] at this
            omega
          have : ti - fi = 0 := by omega
          rw [this]
          simp [hfmem, htmem, hcmp]
        · push_neg at hcmp
          have hcan : canMigrateF reg fromV toV =
              (((reg.map Prod.fst).drop (fi + 1)).take (ti - fi)).all (hasMigration reg) := by
            simp only [canMigrateF, hvs]
            rw [if_neg (by omega), hfi, hti]
          simp only [hcan, hfmem, htmem, true_and]
          constructor
          · intro h; exact Or.inl h
          · rintro (h | h)
            · exact h
            · omega
  · -- missing version tag
    intro d2 h2
    simp [migrateF, h2]
  · -- unknown current version
    intro hnm
    have hfi : idxOf (reg.map Prod.fst) fromV = none := (idxOf_eq_none_iff _ _).mpr hnm
    simp [migrateF, htag, hfls, idxOfTag_str, hvs, hfi]
  · -- unknown target version
    intro hm hnm
    obtain ⟨fi, hfi⟩ := mem_exists_idxOf hm
    have hti : idxOf (reg.map Prod.fst) toV = none := (idxOf_eq_none_iff _ _).mpr hnm
    simp [migrateF, htag, hfls, idxOfTag_str, hvs, hfi, hti]
  · -- broken chain
    intro hm htm hcmp hcan
    obtain ⟨fi, hfi⟩ := mem_exists_idxOf hm
    obtain ⟨ti, hti⟩ := mem_exists_idxOf htm
    have hcan2 : canMigrateF reg fromV toV =
        (((reg.map Prod.fst).drop (fi + 1)).take (ti - fi)).all (hasMigration reg) := by
      simp only [canMigrateF, hvs]
      rw [if_neg (by omega), hfi, hti]
    rw [hcan2] at hcan
    obtain ⟨a, b, hab⟩ := migrateSteps_err_shape reg
      (((reg.map Prod.fst).drop (fi + 1)).take (ti - fi)) data
      (((reg.map Prod.fst).drop fi).headD "") (by simp [hcan])
    refine ⟨a, b, ?_⟩
    simp only [migrateF, htag, hfls, Bool.false_eq_true, if_false, idxOfTag_str, hvs, hfi, hti]
    exact hab

/-- C3 witness: on the three-version registry, migrating data tagged
"1.0.0" to "3.0.0" succeeds, via the success characterization. -/
theorem C3_migration_totality_witness :
    (migrateF regThree (JVal.obj [("_v", .str "1.0.0")]) "3.0.0").isOk = true :=
  ((C3_migration_totality regThree (JVal.obj [("_v", .str "1.0.0")]) "1.0.0" "3.0.0"
      (by decide) rfl (by decide)).2.1).mpr
    ⟨by decide, by decide, Or.inl rfl⟩

/-! ## C1: the diff round trip.  Field-operation lemmas. -/

theorem lookupField_none_iff (fs : List (String × JVal)) (k : String) :
    lookupField fs k = none ↔ k ∉ keysOf fs := by
  induction fs with
  | nil => simp [lookupField, keysOf]
  | cons p rest ih =>
    simp only [lookupField, keysOf, List.map_cons, List.mem_cons]
    split
    · next h => subst h; simp
    · next h => simp [ih, keysOf, Ne.symm h]

theorem lookupField_mem_keys {fs : List (String × JVal)} {k : String} {v : JVal}
    (h : lookupField fs k = some v) : k ∈ keysOf fs := by
  by_contra hc
  rw [← lookupField_none_iff] at hc
  rw [h] at hc
  cases hc

theorem setField_self_of_lookup {fs : List (String × JVal)} {k : String} {v : JVal}
    (h : lookupField fs k = some v) : setField fs k v = fs := by
  induction fs with
  | nil => simp [lookupField] at h
  | cons p rest ih =>
    obtain ⟨k', v'⟩ := p
    simp only [lookupField] at h
    simp only [setField]
    split at h
    · next heq => cases h; simp [heq]
    · next hne => simp [hne, ih h]

theorem lookup_setField_self (fs : List (String × JVal)) (k : String) (v : JVal) :
    lookupField (setField fs k v) k = some v := by
  induction fs with
  | nil => simp [setField, lookupField]
  | cons p rest ih =>
    obtain ⟨k', v'⟩ := p
    simp only [setField]
    split
    · simp [lookupField]
    · next hne => simp [lookupField, hne, ih]

theorem lookup_setField_ne (fs : List (String × JVal)) (k j : String) (v : JVal)
    (hne : j ≠ k) : lookupField (setField fs k v) j = lookupField fs j := by
  induction fs with
  | nil => simp [setField, lookupField, Ne.symm hne]
  | cons p rest ih =>
    obtain ⟨k', v'⟩ := p
    simp only [setField]
    split
    · next heq => subst heq; simp [lookupField, Ne.symm hne]
    · simp only [lookupField]; split <;> simp_all

theorem setField_setField (fs : List (String × JVal)) (k : String) (v w : JVal) :
    setField (setField fs k v) k w = setField fs k w := by
  induction fs with
  | nil => simp [setField]
  | cons p rest ih =>
    obtain ⟨k', v'⟩ := p
    simp only [setField]
    split
    · simp [setField]
    · next hne => simp [setField, hne, ih]

theorem keysOf_setField_mem (fs : List (String × JVal)) (k : String) (v : JVal)
    (h : k ∈ keysOf fs) : keysOf (setField fs k v) = keysOf fs := by
  induction fs with
  | nil => simp [keysOf] at h
  | cons p rest ih =>
    obtain ⟨k', v'⟩ := p
    simp only [setField]
    split
    · next heq => simp [keysOf, heq]
    · next hne =>
      simp only [keysOf, List.map_cons, List.mem_cons] at h
      rcases h with h | h
      · exact absurd h.symm hne
      · simpa [keysOf] using ih h

theorem keysOf_setField_notmem (fs : List (String × JVal)) (k : String) (v : JVal)
    (h : k ∉ keysOf fs) : keysOf (setField fs k v) = keysOf fs ++ [k] := by
  induction fs with
  | nil => simp [setField, keysOf]
  | cons p rest ih =>
    obtain ⟨k', v'⟩ := p
    simp only [keysOf, List.map_cons, List.mem_cons] at h
    push_neg at h
    simp only [setField]
    split
    · next heq => exact absurd heq.symm h.1
    · simpa [keysOf] using ih h.2

theorem lookup_removeField_ne (fs : List (String × JVal)) (k j : String) (hne : j ≠ k) :
    lookupField (removeField fs k) j = lookupField fs j := by
  induction fs with
  | nil => simp [removeField]
  | cons p rest ih =>
    obtain ⟨k', v'⟩ := p
    simp only [removeField]
    split
    · next heq => subst heq; simp [lookupField, Ne.symm hne]
    · simp only [lookupField]; split <;> simp_all

theorem keysOf_removeField_sublist (fs : List (String × JVal)) (k : String) :
    (keysOf (removeField fs k)).Sublist (keysOf fs) := by
  induction fs with
  | nil => simp [removeField]
  | cons p rest ih =>
    obtain ⟨k', v'⟩ := p
    simp only [removeField]
    split
    · simp [keysOf]
    · simpa [keysOf] using ih.cons₂ k'

theorem nodupKeys_iff (l : List String) : nodupKeys l = true ↔ l.Nodup := by
  induction l with
  | nil => simp [nodupKeys]
  | cons k ks ih => simp [nodupKeys, ih, List.nodup_cons]

theorem lookup_removeField_self (fs : List (String × JVal)) (k : String)
    (h : (keysOf fs).Nodup) : lookupField (removeField fs k) k = none := by
  induction fs with
  | nil => simp [removeField, lookupField]
  | cons p rest ih =>
    obtain ⟨k', v'⟩ := p
    simp only [keysOf, List.map_cons, List.nodup_cons] at h
    simp only [removeField]
    split
    · next heq =>
      subst heq
      rw [lookupField_none_iff]
      exact h.1
    · next hne => simp [lookupField, hne, ih h.2]

theorem nodup_keys_setField (fs : List (String × JVal)) (k : String) (v : JVal)
    (h : (keysOf fs).Nodup) : (keysOf (setField fs k v)).Nodup := by
  by_cases hm : k ∈ keysOf fs
  · rwa [keysOf_setField_mem fs k v hm]
  · rw [keysOf_setField_notmem fs k v hm]
    simpa [List.nodup_append] using ⟨h, fun hx => hm hx⟩

theorem nodup_keys_removeField (fs : List (String × JVal)) (k : String)
    (h : (keysOf fs).Nodup) : (keysOf (removeField fs k)).Nodup :=
  (keysOf_removeField_sublist fs k).nodup h

/-! Well-formedness propagation. -/

theorem wfF_lookup {fs : List (String × JVal)} {k : String} {v : JVal}
    (hwf : wfF fs = true) (h : lookupField fs k = some v) : wfV v = true := by
  induction fs with
  | nil => simp [lookupField] at h
  | cons p rest ih =>
    obtain ⟨k', v'⟩ := p
    simp only [wfF, Bool.and_eq_true] at hwf
    simp only [lookupField] at h
    split at h
    · cases h; exact hwf.1
    · exact ih hwf.2 h

theorem keysOkF_lookup {fs : List (String × JVal)} {k : String} {v : JVal}
    (hko : keysOkF fs = true) (h : lookupField fs k = some v) : keysOkV v = true := by
  induction fs with
  | nil => simp [lookupField] at h
  | cons p rest ih =>
    obtain ⟨k', v'⟩ := p
    simp only [keysOkF, Bool.and_eq_true] at hko
    simp only [lookupField] at h
    split at h
    · cases h; exact hko.1.2
    · exact ih hko.2 h

theorem goodKey_of_mem_keys {fs : List (String × JVal)} {k : String}
    (hko : keysOkF fs = true) (h : k ∈ keysOf fs) : goodKey k = true := by
  induction fs with
  | nil => simp [keysOf] at h
  | cons p rest ih =>
    obtain ⟨k', v'⟩ := p
    simp only [keysOkF, Bool.and_eq_true] at hko
    simp only [keysOf, List.map_cons, List.mem_cons] at h
    rcases h with h | h
    · subst h; exact hko.1.1
    · exact ih hko.2 h

theorem mem_dedupGo (l : List String) : ∀ seen x, x ∈ dedupGo seen l ↔ x ∈ l ∧ x ∉ seen := by
  induction l with
  | nil => simp [dedupGo]
  | cons y ys ih =>
    intro seen x
    simp only [dedupGo]
    split
    · next hy =>
      rw [ih]
      simp only [List.mem_cons]
      constructor
      · rintro ⟨h1, h2⟩; exact ⟨Or.inr h1, h2⟩
      · rintro ⟨h1 | h1, h2⟩
        · subst h1; exact absurd hy h2
        · exact ⟨h1, h2⟩
    · next hy =>
      simp only [List.mem_cons, ih]
      constructor
      · rintro (h | ⟨h1, h2⟩)
        · subst h; exact ⟨Or.inl rfl, hy⟩
        · simp only [List.mem_cons, not_or] at h2
          exact ⟨Or.inr h1, h2.2⟩
      · rintro ⟨h1 | h1, h2⟩
        · subst h1; exact Or.inl rfl
        · by_cases hx : x = y
          · subst hx; exact Or.inl rfl
          · exact Or.inr ⟨h1, by simp [hx, h2]⟩

theorem mem_dedupFirst (l : List String) (x : String) : x ∈ dedupFirst l ↔ x ∈ l := by
  simp [dedupFirst, mem_dedupGo]

theorem nodup_dedupGo (l : List String) : ∀ seen, (dedupGo seen l).Nodup := by
  induction l with
  | nil => simp [dedupGo]
  | cons y ys ih =>
    intro seen
    simp only [dedupGo]
    split
    · exact ih seen
    · refine List.nodup_cons.mpr ⟨?_, ih (y :: seen)⟩
      rw [mem_dedupGo]
      rintro ⟨-, h2⟩
      exact h2 (List.mem_cons_self y seen)

theorem nodup_dedupFirst (l : List String) : (dedupFirst l).Nodup := nodup_dedupGo l []

/-! Canonical-form lemmas: two well-formed objects with pointwise
canon-equal lookups have equal canonical forms. -/

theorem canonFields_keys (l : List (String × JVal)) : keysOf (canonFields l) = keysOf l := by
  induction l with
  | nil => simp [canonFields]
  | cons p rest ih =>
    obtain ⟨k, v⟩ := p
    simp [canonFields, keysOf] at ih ⊢
    exact ih

theorem lookup_canonFields (l : List (String × JVal)) (k : String) :
    lookupField (canonFields l) k = (lookupField l k).map canon := by
  induction l with
  | nil => simp [canonFields, lookupField]
  | cons p rest ih =>
    obtain ⟨k', v⟩ := p
    simp only [canonFields, lookupField]
    split <;> simp_all

theorem mem_insertPair (p x : String × JVal) (l : List (String × JVal)) :
    x ∈ insertPair p l ↔ x = p ∨ x ∈ l := by
  induction l with
  | nil => simp [insertPair]
  | cons q qs ih =>
    simp only [insertPair]
    split
    · simp [ih, List.mem_cons, or_left_comm]
    · simp [List.mem_cons]

theorem insertPair_perm (p : String × JVal) (l : List (String × JVal)) :
    (insertPair p l).Perm (p :: l) := by
  induction l with
  | nil => simp [insertPair]
  | cons q qs ih =>
    simp only [insertPair]
    split
    · exact (ih.cons q).trans (List.Perm.swap p q qs)
    · exact List.Perm.refl _

theorem foldl_insertPair_perm (l : List (String × JVal)) :
    ∀ acc, (l.foldl (fun acc p => insertPair p acc) acc).Perm (acc ++ l) := by
  induction l with
  | nil => intro acc; simp
  | cons p ps ih =>
    intro acc
    simp only [List.foldl_cons]
    refine (ih (insertPair p acc)).trans ?_
    have h1 : (insertPair p acc ++ ps).Perm ((p :: acc) ++ ps) :=
      (insertPair_perm p acc).append_right ps
    refine h1.trans ?_
    simpa using List.perm_middle.symm

theorem sortPairs_perm (l : List (String × JVal)) : (sortPairs l).Perm l := by
  simpa [sortPairs] using foldl_insertPair_perm l []

theorem insertPair_sorted (p : String × JVal) (l : List (String × JVal))
    (h : l.Pairwise (fun a b => a.1 ≤ b.1)) :
    (insertPair p l).Pairwise (fun a b => a.1 ≤ b.1) := by
  induction l with
  | nil => simp [insertPair]
  | cons q qs ih =>
    rw [List.pairwise_cons] at h
    simp only [insertPair]
    split
    · next hle =>
      rw [List.pairwise_cons]
      refine ⟨?_, ih h.2⟩
      intro x hx
      rw [mem_insertPair] at hx
      rcases hx with hx | hx
      · subst hx; exact hle
      · exact h.1 x hx
    · next hgt =>
      push_neg at hgt
      rw [List.pairwise_cons]
      refine ⟨?_, List.pairwise_cons.mpr h⟩
      intro x hx
      rcases List.mem_cons.mp hx with hx | hx
      · subst hx; exact le_of_lt hgt
      · exact le_trans (le_of_lt hgt) (h.1 x hx)

theorem sortPairs_sorted (l : List (String × JVal)) :
    (sortPairs l).Pairwise (fun a b => a.1 ≤ b.1) := by
  have main : ∀ acc, acc.Pairwise (fun a b : String × JVal => a.1 ≤ b.1) →
      (l.foldl (fun acc p => insertPair p acc) acc).Pairwise (fun a b => a.1 ≤ b.1) := by
    induction l with
    | nil => intro acc h; simpa using h
    | cons p ps ih =>
      intro acc h
      simp only [List.foldl_cons]
      exact ih (insertPair p acc) (insertPair_sorted p acc h)
  simpa [sortPairs] using main [] (by simp)

theorem eq_nil_of_all_lookup_none (l : List (String × JVal))
    (h : ∀ j, lookupField l j = none) : l = [] := by
  cases l with
  | nil => rfl
  | cons p rest =>
    have := h p.1
    rw [show (p :: rest) = ((p.1, p.2) :: rest) by simp] at this
    simp [lookupField] at this

theorem lookup_split {l : List (String × JVal)} {k : String} {v : JVal}
    (h : lookupField l k = some v) :
    ∃ a b, l = a ++ (k, v) :: b ∧ k ∉ keysOf a := by
  induction l with
  | nil => simp [lookupField] at h
  | cons p rest ih =>
    obtain ⟨k', v'⟩ := p
    simp only [lookupField] at h
    split at h
    · next heq =>
      cases h
      subst heq
      exact ⟨[], rest, by simp, by simp [keysOf]⟩
    · next hne =>
      obtain ⟨a, b, hab, hka⟩ := ih h
      refine ⟨(k', v') :: a, b, by simp [hab], ?_⟩
      simp only [keysOf, List.map_cons, List.mem_cons, not_or]
      exact ⟨Ne.symm hne, by simpa [keysOf] using hka⟩

theorem lookup_append_mid_ne (a b : List (String × JVal)) (k j : String) (v : JVal)
    (hne : j ≠ k) :
    lookupField (a ++ (k, v) :: b) j = lookupField (a ++ b) j := by
  induction a with
  | nil => simp [lookupField, Ne.symm hne]
  | cons p rest ih =>
    obtain ⟨k', v'⟩ := p
    simp only [List.cons_append, lookupField]
    split <;> simp_all

theorem perm_of_lookup_eq : ∀ (l1 l2 : List (String × JVal)),
    (keysOf l1).Nodup → (keysOf l2).Nodup →
    (∀ j, lookupField l1 j = lookupField l2 j) → l1.Perm l2 := by
  intro l1
  induction l1 with
  | nil =>
    intro l2 _ _ h
    have : l2 = [] := eq_nil_of_all_lookup_none l2 (fun j => by
      have := h j
      simpa [lookupField] using this.symm)
    simp [this]
  | cons p rest ih =>
    intro l2 h1 h2 h
    obtain ⟨k, v⟩ := p
    have hk : lookupField l2 k = some v := by
      have := h k
      simpa [lookupField] using this.symm
    obtain ⟨a, b, hab, hka⟩ := lookup_split hk
    subst hab
    simp only [keysOf, List.map_cons, List.nodup_cons] at h1
    have h2' : (List.map Prod.fst a ++ k :: List.map Prod.fst b).Nodup := by
      simpa [keysOf] using h2
    have hkb : k ∉ keysOf b := by
      have hnd := (List.nodup_append.mp h2').2.1
      simpa [keysOf] using (List.nodup_cons.mp hnd).1
    have hab_nodup : (keysOf (a ++ b)).Nodup := by
      have hsub : (List.map Prod.fst a ++ List.map Prod.fst b).Sublist
          (List.map Prod.fst a ++ k :: List.map Prod.fst b) :=
        (List.sublist_cons_self k (List.map Prod.fst b)).append_left (List.map Prod.fst a)
      simpa [keysOf] using hsub.nodup h2'
    have hperm : rest.Perm (a ++ b) := by
      refine ih (a ++ b) h1.2 hab_nodup ?_
      intro j
      by_cases hj : j = k
      · subst hj
        rw [(lookupField_none_iff rest j).mpr h1.1]
        have hj2 : j ∉ keysOf (a ++ b) := by
          simp only [keysOf, List.map_append, List.mem_append, not_or]
          exact ⟨by simpa [keysOf] using hka, by simpa [keysOf] using hkb⟩
        rw [(lookupField_none_iff _ j).mpr hj2]
      · have := h j
        simp only [lookupField, if_neg (Ne.symm hj)] at this
        rw [this, lookup_append_mid_ne a b k j v hj]
    exact (hperm.cons (k, v)).trans List.perm_middle.symm

theorem nodup_pairwise_keys {l : List (String × JVal)} (h : (keysOf l).Nodup) :
    l.Pairwise (fun a b : String × JVal => a.1 ≠ b.1) := by
  have h2 : (l.map Prod.fst).Nodup := h
  exact List.pairwise_map.mp h2

theorem canon_obj_ext (hs gs : List (String × JVal))
    (h1 : (keysOf hs).Nodup) (h2 : (keysOf gs).Nodup)
    (h : ∀ j, (lookupField hs j).map canon = (lookupField gs j).map canon) :
    canon (.obj hs) = canon (.obj gs) := by
  have hn1 : (keysOf (canonFields hs)).Nodup := by rwa [canonFields_keys]
  have hn2 : (keysOf (canonFields gs)).Nodup := by rwa [canonFields_keys]
  have hperm : (canonFields hs).Perm (canonFields gs) := by
    refine perm_of_lookup_eq _ _ hn1 hn2 ?_
    intro j
    rw [lookup_canonFields, lookup_canonFields]
    exact h j
  have hchain : (sortPairs (canonFields hs)).Perm (sortPairs (canonFields gs)) :=
    ((sortPairs_perm _).trans hperm).trans (sortPairs_perm _).symm
  have hstrict : ∀ (l : List (String × JVal)), (keysOf l).Nodup →
      (sortPairs l).Pairwise (fun a b : String × JVal => a.1 < b.1) := by
    intro l hl
    have hsorted := sortPairs_sorted l
    have hnd : (keysOf (sortPairs l)).Nodup := by
      have : (keysOf (sortPairs l)).Perm (keysOf l) := (sortPairs_perm l).map Prod.fst
      exact this.nodup_iff.mpr hl
    have hne := nodup_pairwise_keys hnd
    exact (hsorted.and hne).imp (fun hab => lt_of_le_of_ne hab.1 hab.2)
  haveI : IsAntisymm (String × JVal) (fun a b => a.1 < b.1) :=
    ⟨fun a b hab hba => absurd hab (not_lt.mpr (le_of_lt hba))⟩
  have heq : sortPairs (canonFields hs) = sortPairs (canonFields gs) :=
    List.eq_of_perm_of_sorted hchain (hstrict _ hn1) (hstrict _ hn2)
  simp only [canon]
  rw [heq]

/-! Lemmas about applying entries. -/

theorem applyEntry_some_obj {v : JVal} {parts : List String} {op : Op} {r : JVal}
    (h : applyEntry v parts op = some r) : ∃ hs, r = .obj hs := by
  match parts with
  | [] => simp [applyEntry] at h
  | [k] =>
    cases v <;> simp [applyEntry] at h
    exact ⟨_, h.symm⟩
  | k :: k2 :: rest =>
    cases v <;> simp [applyEntry] at h
    obtain ⟨w, -, hw⟩ := h
    exact ⟨_, hw.symm⟩

theorem applyEntry_leaf (fs : List (String × JVal)) (k : String) (op : Op) :
    applyEntry (.obj fs) [k] op = some (.obj (applyLeaf fs k op)) := rfl

theorem applyEntry_cons_eq (fs : List (String × JVal)) (k k2 : String) (rest : List String)
    (op : Op) {sub : JVal} (hsub : lookupField fs k = some sub) (hf : falsy sub = false) :
    applyEntry (.obj fs) (k :: k2 :: rest) op =
      (applyEntry sub (k2 :: rest) op).map (fun ns => .obj (setField fs k ns)) := by
  simp [applyEntry, hsub, hf]

theorem foldl_entries_none (d : List (List String × Op)) :
    d.foldl (fun acc e => acc.bind (fun cur => applyEntry cur e.1 e.2)) none = none := by
  induction d with
  | nil => rfl
  | cons e es ih => simpa using ih

theorem applyDiffL_cons (v : JVal) (e : List String × Op) (d : List (List String × Op)) :
    applyDiffL v (e :: d) = (applyEntry v e.1 e.2).bind (fun w => applyDiffL w d) := by
  unfold applyDiffL
  simp only [List.foldl_cons, Option.some_bind]
  cases h : applyEntry v e.1 e.2 with
  | none => simp [foldl_entries_none]
  | some w => simp

theorem applyDiffL_append (v : JVal) (d1 d2 : List (List String × Op)) :
    applyDiffL v (d1 ++ d2) = (applyDiffL v d1).bind (fun w => applyDiffL w d2) := by
  unfold applyDiffL
  rw [List.foldl_append]
  cases h : d1.foldl (fun acc e => acc.bind (fun cur => applyEntry cur e.1 e.2)) (some v) with
  | none => simp [foldl_entries_none]
  | some w => simp

theorem applyDiffL_nil (v : JVal) : applyDiffL v [] = some v := rfl

/-- Applying entries that all extend one leading key `k` to an object
whose field `k` holds a truthy value is applying the unprefixed entries
inside that field. -/
theorem fold_prefixed (k : String) (es : List (List String × Op))
    (hne : ∀ e ∈ es, e.1 ≠ []) :
    ∀ (hs : List (String × JVal)) (sub : JVal),
      lookupField hs k = some sub → falsy sub = false →
      applyDiffL (.obj hs) (es.map (fun e => (k :: e.1, e.2))) =
        (applyDiffL sub es).map (fun s => .obj (setField hs k s)) := by
  induction es with
  | nil =>
    intro hs sub hsub hf
    simp only [List.map_nil, applyDiffL_nil, Option.map_some']
    rw [setField_self_of_lookup hsub]
  | cons e es ih =>
    intro hs sub hsub hf
    obtain ⟨p, op⟩ := e
    have hp : p ≠ [] := hne (p, op) (List.mem_cons_self _ _)
    obtain ⟨k2, rest, rfl⟩ : ∃ k2 rest, p = k2 :: rest := by
      cases p with
      | nil => exact absurd rfl hp
      | cons a b => exact ⟨a, b, rfl⟩
    rw [List.map_cons, applyDiffL_cons, applyDiffL_cons]
    simp only
    rw [applyEntry_cons_eq hs k k2 rest op hsub hf]
    cases hinner : applyEntry sub (k2 :: rest) op with
    | none => simp
    | some s1 =>
      obtain ⟨s1f, rfl⟩ := applyEntry_some_obj hinner
      simp only [Option.map_some', Option.some_bind, Option.bind_map]
      rw [ih (fun e he => hne e (List.mem_cons_of_mem _ he)) (setField hs k (.obj s1f))
        (.obj s1f) (lookup_setField_self hs k (.obj s1f)) rfl]
      cases applyDiffL (.obj s1f) es with
      | none => simp
      | some s2 =>
        simp [setField_setField]

/-! Case characterizations of the per-key differ (both path flavors),
resolving its dependent match once. -/

theorem diffEntryL_nn {fs gs : List (String × JVal)} {k : String}
    (h1 : lookupField fs k = none) (h2 : lookupField gs k = none) :
    diffEntryL fs gs k = [] := by
  simp only [diffEntryL]
  split <;> simp_all

theorem diffEntryL_add {fs gs : List (String × JVal)} {k : String} {nv : JVal}
    (h1 : lookupField fs k = none) (h2 : lookupField gs k = some nv) :
    diffEntryL fs gs k = [([k], .add nv)] := by
  simp only [diffEntryL]
  split <;> simp_all

theorem diffEntryL_del {fs gs : List (String × JVal)} {k : String} {ov : JVal}
    (h1 : lookupField fs k = some ov) (h2 : lookupField gs k = none) :
    diffEntryL fs gs k = [([k], .del ov)] := by
  simp only [diffEntryL]
  split <;> simp_all

theorem diffEntryL_prim {fs gs : List (String × JVal)} {k : String} {ov nv : JVal}
    (h1 : lookupField fs k = some ov) (h2 : lookupField gs k = some nv)
    (hp : (isPrim ov || isPrim nv) = true) :
    diffEntryL fs gs k =
      if JVal.beq ov nv then [] else [([k], .update ov nv)] := by
  simp only [diffEntryL]
  split <;> simp_all

theorem diffEntryL_arr {fs gs : List (String × JVal)} {k : String} {ov nv : JVal}
    (h1 : lookupField fs k = some ov) (h2 : lookupField gs k = some nv)
    (hp : (isPrim ov || isPrim nv) = false) (ha : (isArr ov || isArr nv) = true) :
    diffEntryL fs gs k =
      if JVal.beq ov nv then [] else [([k], .update ov nv)] := by
  simp only [diffEntryL]
  split <;> simp_all

theorem diffEntryL_objobj {fs gs : List (String × JVal)} {k : String}
    {fs2 gs2 : List (String × JVal)}
    (h1 : lookupField fs k = some (.obj fs2)) (h2 : lookupField gs k = some (.obj gs2)) :
    diffEntryL fs gs k = (diffFieldsL fs2 gs2).map (fun e => (k :: e.1, e.2)) := by
  simp only [diffEntryL]
  split <;> simp_all [isPrim, isArr] <;> (subst h1; subst h2; rfl)

theorem diffKeysL_nil (fs gs : List (String × JVal)) : diffKeysL fs gs [] = [] := by
  simp [diffKeysL]

theorem diffKeysL_cons (fs gs : List (String × JVal)) (k : String) (ks : List String) :
    diffKeysL fs gs (k :: ks) = diffEntryL fs gs k ++ diffKeysL fs gs ks := by
  simp [diffKeysL]

theorem diffFieldsL_eq (fs gs : List (String × JVal)) :
    diffFieldsL fs gs = diffKeysL fs gs (dedupFirst (keysOf fs ++ keysOf gs)) := by
  simp [diffFieldsL]

theorem diffEntry_nn {fs gs : List (String × JVal)} {path k : String}
    (h1 : lookupField fs k = none) (h2 : lookupField gs k = none) :
    diffEntry fs gs path k = [] := by
  simp only [diffEntry]
  split <;> simp_all

theorem diffEntry_add {fs gs : List (String × JVal)} {path k : String} {nv : JVal}
    (h1 : lookupField fs k = none) (h2 : lookupField gs k = some nv) :
    diffEntry fs gs path k = [(joinPath path k, .add nv)] := by
  simp only [diffEntry]
  split <;> simp_all

theorem diffEntry_del {fs gs : List (String × JVal)} {path k : String} {ov : JVal}
    (h1 : lookupField fs k = some ov) (h2 : lookupField gs k = none) :
    diffEntry fs gs path k = [(joinPath path k, .del ov)] := by
  simp only [diffEntry]
  split <;> simp_all

theorem diffEntry_prim {fs gs : List (String × JVal)} {path k : String} {ov nv : JVal}
    (h1 : lookupField fs k = some ov) (h2 : lookupField gs k = some nv)
    (hp : (isPrim ov || isPrim nv) = true) :
    diffEntry fs gs path k =
      if JVal.beq ov nv then [] else [(joinPath path k, .update ov nv)] := by
  simp only [diffEntry]
  split <;> simp_all

theorem diffEntry_arr {fs gs : List (String × JVal)} {path k : String} {ov nv : JVal}
    (h1 : lookupField fs k = some ov) (h2 : lookupField gs k = some nv)
    (hp : (isPrim ov || isPrim nv) = false) (ha : (isArr ov || isArr nv) = true) :
    diffEntry fs gs path k =
      if JVal.beq ov nv then [] else [(joinPath path k, .update ov nv)] := by
  simp only [diffEntry]
  split <;> simp_all

theorem diffEntry_objobj {fs gs : List (String × JVal)} {path k : String}
    {fs2 gs2 : List (String × JVal)}
    (h1 : lookupField fs k = some (.obj fs2)) (h2 : lookupField gs k = some (.obj gs2)) :
    diffEntry fs gs path k = diffFields fs2 gs2 (joinPath path k) := by
  simp only [diffEntry]
  split <;> simp_all [isPrim, isArr] <;> (subst h1; subst h2; rfl)

theorem diffKeys_nil (fs gs : List (String × JVal)) (path : String) :
    diffKeys fs gs path [] = [] := by
  simp [diffKeys]

theorem diffKeys_cons (fs gs : List (String × JVal)) (path k : String) (ks : List String) :
    diffKeys fs gs path (k :: ks) = diffEntry fs gs path k ++ diffKeys fs gs path ks := by
  simp [diffKeys]

theorem diffFields_eq (fs gs : List (String × JVal)) (path : String) :
    diffFields fs gs path = diffKeys fs gs path (dedupFirst (keysOf fs ++ keysOf gs)) := by
  simp [diffFields]

theorem diffL_paths_nonempty : ∀ fs gs, ∀ e ∈ diffFieldsL fs gs, e.1 ≠ [] := by
  apply diffFieldsL.induct
    (fun fs gs => ∀ e ∈ diffFieldsL fs gs, e.1 ≠ [])
    (fun fs gs ks => ∀ e ∈ diffKeysL fs gs ks, e.1 ≠ [])
    (fun fs gs k => ∀ e ∈ diffEntryL fs gs k, e.1 ≠ [])
  case case1 =>
    intro fs gs ih e he
    rw [diffFieldsL_eq] at he
    exact ih e he
  case case2 =>
    intro fs gs e he
    rw [diffKeysL_nil] at he
    cases he
  case case3 =>
    intro fs gs k ks ih1 ih2 e he
    rw [diffKeysL_cons, List.mem_append] at he
    rcases he with he | he
    · exact ih1 e he
    · exact ih2 e he
  case case4 =>
    intro fs gs k h1 h2 e he
    rw [diffEntryL_nn h1 h2] at he
    cases he
  case case5 =>
    intro fs gs k nv h1 h2 e he
    rw [diffEntryL_add h1 h2, List.mem_singleton] at he
    subst he
    simp
  case case6 =>
    intro fs gs k ov h1 h2 e he
    rw [diffEntryL_del h1 h2, List.mem_singleton] at he
    subst he
    simp
  case case7 =>
    intro fs gs k ov nv h1 h2 hp hbeq e he
    rw [diffEntryL_prim h1 h2 hp, if_pos hbeq] at he
    cases he
  case case8 =>
    intro fs gs k ov nv h1 h2 hp hbeq e he
    rw [diffEntryL_prim h1 h2 hp, if_neg hbeq, List.mem_singleton] at he
    subst he
    simp
  case case9 =>
    intro fs gs k ov nv h1 h2 hp ha hbeq e he
    rw [diffEntryL_arr h1 h2 (Bool.not_eq_true _ ▸ hp) ha, if_pos hbeq] at he
    cases he
  case case10 =>
    intro fs gs k ov nv h1 h2 hp ha hbeq e he
    rw [diffEntryL_arr h1 h2 (Bool.not_eq_true _ ▸ hp) ha, if_neg hbeq, List.mem_singleton] at he
    subst he
    simp
  case case11 =>
    intro fs gs k fs2 gs2 ha hb ha2 hb2 hp harr ih e he
    rw [diffEntryL_objobj ha hb, List.mem_map] at he
    obtain ⟨e2, -, he2⟩ := he
    subst he2
    simp
  case case12 =>
    intro fs gs k ov nv ha hb hp harr h1 h2 hcontra e he
    exfalso
    cases ov <;> cases nv <;>
      first
        | simp_all [isPrim, isArr]
        | exact hcontra _ _ h1 h2 rfl rfl HEq.rfl HEq.rfl

/-- Core round-trip result, path-list level: applying the diff of two
well-formed objects to the first produces an object deep-equal (equal
canonical form) to the second. -/
theorem roundtripAux : ∀ (n : Nat) (fs gs : List (String × JVal)),
    sizeOf fs + sizeOf gs ≤ n →
    wfV (.obj fs) = true → wfV (.obj gs) = true →
    ∃ rs, applyDiffL (.obj fs) (diffFieldsL fs gs) = some (.obj rs) ∧
      canon (.obj rs) = canon (.obj gs) := by
  intro n
  induction n with
  | zero =>
    intro fs gs hle _ _
    exfalso
    have h1 : 0 < sizeOf fs := by
      cases fs <;> simp only [List.cons.sizeOf_spec, List.nil.sizeOf_spec] <;> omega
    have h2 : 0 < sizeOf gs := by
      cases gs <;> simp only [List.cons.sizeOf_spec, List.nil.sizeOf_spec] <;> omega
    omega
  | succ n ih =>
    intro fs gs hle hwf1 hwf2
    have hwfa : nodupKeys (keysOf fs) = true ∧ wfF fs = true := by
      simpa [wfV, Bool.and_eq_true] using hwf1
    have hwfb : nodupKeys (keysOf gs) = true ∧ wfF gs = true := by
      simpa [wfV, Bool.and_eq_true] using hwf2
    obtain ⟨hnd1b, hF1⟩ := hwfa
    obtain ⟨hnd2b, hF2⟩ := hwfb
    have hnd1 : (keysOf fs).Nodup := (nodupKeys_iff _).mp hnd1b
    have hnd2 : (keysOf gs).Nodup := (nodupKeys_iff _).mp hnd2b
    have key_loop : ∀ ks : List String, ks.Nodup →
        ∀ hs : List (String × JVal), (keysOf hs).Nodup →
          (∀ k ∈ ks, lookupField hs k = lookupField fs k) →
          ∃ hs2, applyDiffL (.obj hs) (diffKeysL fs gs ks) = some (.obj hs2) ∧
            (keysOf hs2).Nodup ∧
            (∀ j, j ∉ ks → lookupField hs2 j = lookupField hs j) ∧
            (∀ k ∈ ks,
              (lookupField gs k = none → lookupField hs2 k = none) ∧
              (∀ nv, lookupField gs k = some nv →
                ∃ w, lookupField hs2 k = some w ∧ canon w = canon nv)) := by
      intro ks
      induction ks with
      | nil =>
        intro _ hs hnd hinv
        refine ⟨hs, ?_, hnd, fun j _ => rfl, by simp⟩
        rw [diffKeysL_nil, applyDiffL_nil]
      | cons k ks ihk =>
        intro hknd hs hnd hinv
        obtain ⟨hk_not, hknd2⟩ := List.nodup_cons.mp hknd
        have hlk : lookupField hs k = lookupField fs k := hinv k (List.mem_cons_self _ _)
        rw [diffKeysL_cons, applyDiffL_append]
        have step : ∃ hs1, applyDiffL (.obj hs) (diffEntryL fs gs k) = some (.obj hs1) ∧
            (keysOf hs1).Nodup ∧
            (∀ j, j ≠ k → lookupField hs1 j = lookupField hs j) ∧
            (lookupField gs k = none → lookupField hs1 k = none) ∧
            (∀ nv, lookupField gs k = some nv →
              ∃ w, lookupField hs1 k = some w ∧ canon w = canon nv) := by
          cases hfk : lookupField fs k with
          | none =>
            cases hgk : lookupField gs k with
            | none =>
              refine ⟨hs, ?_, hnd, fun j _ => rfl, fun _ => ?_, ?_⟩
              · rw [diffEntryL_nn hfk hgk, applyDiffL_nil]
              · rw [hlk, hfk]
              · intro nv hnv; exact Option.noConfusion hnv
            | some nv =>
              refine ⟨setField hs k nv, ?_, nodup_keys_setField hs k nv hnd, ?_, ?_, ?_⟩
              · rw [diffEntryL_add hfk hgk, applyDiffL_cons]
                simp [applyEntry_leaf, applyLeaf, applyDiffL_nil]
              · intro j hj; exact lookup_setField_ne hs k j nv hj
              · intro hno; exact Option.noConfusion hno
              · intro nv2 hnv2
                cases hnv2
                exact ⟨nv, lookup_setField_self hs k nv, rfl⟩
          | some ov =>
            cases hgk : lookupField gs k with
            | none =>
              refine ⟨removeField hs k, ?_, nodup_keys_removeField hs k hnd, ?_, ?_, ?_⟩
              · rw [diffEntryL_del hfk hgk, applyDiffL_cons]
                simp [applyEntry_leaf, applyLeaf, applyDiffL_nil]
              · intro j hj; exact lookup_removeField_ne hs k j hj
              · intro _; exact lookup_removeField_self hs k hnd
              · intro nv hnv; exact Option.noConfusion hnv
            | some nv =>
              by_cases hpa : (isPrim ov || isPrim nv) = true ∨
                  ((isPrim ov || isPrim nv) = false ∧ (isArr ov || isArr nv) = true)
              · have hentry : diffEntryL fs gs k =
                    if JVal.beq ov nv then [] else [([k], .update ov nv)] := by
                  rcases hpa with hp | ⟨hp, ha⟩
                  · exact diffEntryL_prim hfk hgk hp
                  · exact diffEntryL_arr hfk hgk hp ha
                by_cases hbeq : JVal.beq ov nv = true
                · have hov : ov = nv := (JVal.beq_iff_eq ov nv).mp hbeq
                  refine ⟨hs, ?_, hnd, fun j _ => rfl, ?_, ?_⟩
                  · rw [hentry, if_pos hbeq, applyDiffL_nil]
                  · intro hno; exact Option.noConfusion hno
                  · intro nv2 hnv2; cases hnv2
                    exact ⟨ov, by rw [hlk, hfk], by rw [hov]⟩
                · refine ⟨setField hs k nv, ?_, nodup_keys_setField hs k nv hnd, ?_, ?_, ?_⟩
                  · rw [hentry, if_neg hbeq, applyDiffL_cons]
                    simp [applyEntry_leaf, applyLeaf, applyDiffL_nil]
                  · intro j hj; exact lookup_setField_ne hs k j nv hj
                  · intro hno; exact Option.noConfusion hno
                  · intro nv2 hnv2; cases hnv2
                    exact ⟨nv, lookup_setField_self hs k nv, rfl⟩
              · have hp : (isPrim ov || isPrim nv) = false := by
                  cases hcase : (isPrim ov || isPrim nv)
                  · rfl
                  · exact absurd (Or.inl hcase) hpa
                have ha : (isArr ov || isArr nv) = false := by
                  cases hcase : (isArr ov || isArr nv)
                  · rfl
                  · exact absurd (Or.inr ⟨hp, hcase⟩) hpa
                obtain ⟨fs2, rfl⟩ : ∃ x, ov = JVal.obj x := by
                  cases ov with
                  | obj x => exact ⟨x, rfl⟩
                  | null => simp [isPrim] at hp
                  | str s => simp [isPrim] at hp
                  | num m => simp [isPrim] at hp
                  | bool b => simp [isPrim] at hp
                  | arr xs => simp [isArr] at ha
                obtain ⟨gs2, rfl⟩ : ∃ x, nv = JVal.obj x := by
                  cases nv with
                  | obj x => exact ⟨x, rfl⟩
                  | null => simp [isPrim] at hp
                  | str s => simp [isPrim] at hp
                  | num m => simp [isPrim] at hp
                  | bool b => simp [isPrim] at hp
                  | arr xs => simp [isArr] at ha
                have hentry := diffEntryL_objobj hfk hgk
                have hsz : sizeOf fs2 + sizeOf gs2 ≤ n := by
                  have s1 := sizeOf_lookupField hfk
                  have s2 := sizeOf_lookupField hgk
                  simp only [JVal.obj.sizeOf_spec] at s1 s2
                  omega
                obtain ⟨rs2, hap2, hc2⟩ := ih fs2 gs2 hsz (wfF_lookup hF1 hfk)
                  (wfF_lookup hF2 hgk)
                refine ⟨setField hs k (.obj rs2), ?_,
                  nodup_keys_setField hs k (.obj rs2) hnd, ?_, ?_, ?_⟩
                · rw [hentry]
                  rw [fold_prefixed k (diffFieldsL fs2 gs2)
                    (diffL_paths_nonempty fs2 gs2) hs (.obj fs2) (by rw [hlk, hfk]) rfl]
                  rw [hap2]
                  simp
                · intro j hj; exact lookup_setField_ne hs k j _ hj
                · intro hno; exact Option.noConfusion hno
                · intro nv2 hnv2; cases hnv2
                  exact ⟨.obj rs2, lookup_setField_self hs k _, hc2⟩
        obtain ⟨hs1, hap1, hnd1x, hpres1, hguard_none, hguard_some⟩ := step
        have hinv1 : ∀ k2 ∈ ks, lookupField hs1 k2 = lookupField fs k2 := by
          intro k2 hk2
          have hne : k2 ≠ k := fun h => hk_not (h ▸ hk2)
          rw [hpres1 k2 hne]
          exact hinv k2 (List.mem_cons_of_mem _ hk2)
        obtain ⟨hs2, hap2, hnd2x, hpres2, hcorr2⟩ := ihk hknd2 hs1 hnd1x hinv1
        refine ⟨hs2, ?_, hnd2x, ?_, ?_⟩
        · rw [hap1]
          simpa using hap2
        · intro j hj
          simp only [List.mem_cons, not_or] at hj
          rw [hpres2 j hj.2, hpres1 j hj.1]
        · intro k2 hk2
          rcases List.mem_cons.mp hk2 with rfl | hk22
          · constructor
            · intro hno
              rw [hpres2 k2 hk_not]
              exact hguard_none hno
            · intro nv hnv
              obtain ⟨w, hw, hcw⟩ := hguard_some nv hnv
              exact ⟨w, by rw [hpres2 k2 hk_not]; exact hw, hcw⟩
          · exact hcorr2 k2 hk22
    obtain ⟨hs2, hap, hndr, hpres, hcorr⟩ := key_loop
      (dedupFirst (keysOf fs ++ keysOf gs)) (nodup_dedupFirst _) fs hnd1 (fun _ _ => rfl)
    refine ⟨hs2, ?_, ?_⟩
    · rw [diffFieldsL_eq]
      exact hap
    · refine canon_obj_ext hs2 gs hndr hnd2 ?_
      intro j
      by_cases hj : j ∈ dedupFirst (keysOf fs ++ keysOf gs)
      · obtain ⟨hnone, hsome⟩ := hcorr j hj
        cases hgj : lookupField gs j with
        | none => rw [hnone hgj]
        | some nv =>
          obtain ⟨w, hw, hcw⟩ := hsome nv hgj
          rw [hw]
          simp [hcw]
      · have hj2 : j ∉ keysOf fs ∧ j ∉ keysOf gs := by
          rw [mem_dedupFirst] at hj
          simpa [List.mem_append, not_or] using hj
        rw [hpres j hj, (lookupField_none_iff fs j).mpr hj2.1,
          (lookupField_none_iff gs j).mpr hj2.2]

/-! Bridging the dotted-string paths of the source to the path lists of
the mirror: joining then splitting is the identity exactly when keys are
nonempty and dot-free. -/

theorem splitGo_no_sep (sep : Char) (l : List Char) :
    ∀ acc, sep ∉ l → splitGo sep l acc = [String.mk (acc.reverse ++ l)] := by
  induction l with
  | nil => intro acc _; simp [splitGo]
  | cons c cs ih =>
    intro acc h
    simp only [List.mem_cons, not_or] at h
    simp only [splitGo, if_neg (Ne.symm h.1)]
    rw [ih _ h.2]
    simp

theorem splitGo_append (sep : Char) (l1 l2 : List Char) :
    ∀ acc, sep ∉ l1 → splitGo sep (l1 ++ sep :: l2) acc =
      String.mk (acc.reverse ++ l1) :: splitGo sep l2 [] := by
  induction l1 with
  | nil => intro acc _; simp [splitGo]
  | cons c cs ih =>
    intro acc h
    simp only [List.mem_cons, not_or] at h
    simp only [List.cons_append, splitGo, if_neg (Ne.symm h.1), List.append_eq]
    rw [ih _ h.2]
    simp

theorem goodKey_no_dot {k : String} (h : goodKey k = true) : '.' ∉ k.data := by
  simp only [goodKey, Bool.and_eq_true, List.all_eq_true] at h
  intro hx
  have := h.2 '.' hx
  simp at this

theorem goodKey_ne_empty {k : String} (h : goodKey k = true) : k ≠ "" := by
  simp only [goodKey, Bool.and_eq_true] at h
  simpa using h.1

theorem splitDot_single (k : String) (h : goodKey k = true) : splitDot k = [k] := by
  unfold splitDot splitOnChar
  rw [splitGo_no_sep '.' k.data [] (goodKey_no_dot h)]
  cases k
  rfl

theorem string_append_dot_ne (a b : String) : a ++ "." ++ b ≠ "" := by
  intro hcontra
  have := congrArg String.data hcontra
  simp [String.data_append] at this

theorem joinPath_ne (p k : String) (h : p ≠ "") : joinPath p k = p ++ "." ++ k := by
  simp [joinPath, h]

theorem foldl_joinPath_pull (rest : List String) :
    ∀ pre k2 : String, pre ≠ "" → k2 ≠ "" →
      rest.foldl joinPath (pre ++ "." ++ k2) = pre ++ "." ++ rest.foldl joinPath k2 := by
  induction rest with
  | nil => intro pre k2 _ _; rfl
  | cons r rest ih =>
    intro pre k2 hpre hk2
    simp only [List.foldl_cons]
    rw [joinPath_ne (pre ++ "." ++ k2) r (string_append_dot_ne pre k2)]
    have hassoc : pre ++ "." ++ k2 ++ "." ++ r = pre ++ "." ++ (k2 ++ "." ++ r) := by
      apply String.ext
      simp [String.data_append]
    rw [hassoc, ih pre (k2 ++ "." ++ r) hpre (string_append_dot_ne k2 r),
      joinPath_ne k2 r hk2]

theorem joinAll_cons (k k2 : String) (p : List String) (hk : k ≠ "") (hk2 : k2 ≠ "") :
    joinAll "" (k :: k2 :: p) = k ++ "." ++ joinAll "" (k2 :: p) := by
  show (p.foldl joinPath (joinPath (joinPath "" k) k2)) = _
  have h1 : joinPath "" k = k := by simp [joinPath]
  rw [h1, joinPath_ne k k2 hk]
  show _ = k ++ "." ++ p.foldl joinPath (joinPath "" k2)
  have h2 : joinPath "" k2 = k2 := by simp [joinPath]
  rw [h2]
  exact foldl_joinPath_pull p k k2 hk hk2

theorem splitDot_joinAll (p : List String) (hp : p ≠ [])
    (hgood : ∀ c ∈ p, goodKey c = true) : splitDot (joinAll "" p) = p := by
  induction p with
  | nil => exact absurd rfl hp
  | cons k p ih =>
    cases p with
    | nil =>
      have hk := hgood k (by simp)
      have h1 : joinAll "" [k] = k := by simp [joinAll, joinPath]
      rw [h1, splitDot_single k hk]
    | cons k2 rest =>
      have hk := hgood k (by simp)
      have hk2 := hgood k2 (by simp)
      rw [joinAll_cons k k2 rest (goodKey_ne_empty hk) (goodKey_ne_empty hk2)]
      have hdata : (k ++ "." ++ joinAll "" (k2 :: rest)).data =
          k.data ++ '.' :: (joinAll "" (k2 :: rest)).data := by
        simp [String.data_append]
      unfold splitDot splitOnChar
      rw [hdata, splitGo_append '.' k.data _ [] (goodKey_no_dot hk)]
      have hrec := ih (by simp) (fun c hc => hgood c (by simp [hc]))
      unfold splitDot splitOnChar at hrec
      rw [hrec]
      cases k
      rfl

theorem diffL_components_good : ∀ fs gs, keysOkF fs = true → keysOkF gs = true →
    ∀ e ∈ diffFieldsL fs gs, ∀ c ∈ e.1, goodKey c = true := by
  apply diffFieldsL.induct
    (fun fs gs => keysOkF fs = true → keysOkF gs = true →
      ∀ e ∈ diffFieldsL fs gs, ∀ c ∈ e.1, goodKey c = true)
    (fun fs gs ks => keysOkF fs = true → keysOkF gs = true →
      ∀ e ∈ diffKeysL fs gs ks, ∀ c ∈ e.1, goodKey c = true)
    (fun fs gs k => keysOkF fs = true → keysOkF gs = true →
      ∀ e ∈ diffEntryL fs gs k, ∀ c ∈ e.1, goodKey c = true)
  case case1 =>
    intro fs gs ih hk1 hk2 e he
    rw [diffFieldsL_eq] at he
    exact ih hk1 hk2 e he
  case case2 =>
    intro fs gs hk1 hk2 e he
    rw [diffKeysL_nil] at he
    cases he
  case case3 =>
    intro fs gs k ks ih1 ih2 hk1 hk2 e he
    rw [diffKeysL_cons, List.mem_append] at he
    rcases he with he | he
    · exact ih1 hk1 hk2 e he
    · exact ih2 hk1 hk2 e he
  case case4 =>
    intro fs gs k h1 h2 hk1 hk2 e he
    rw [diffEntryL_nn h1 h2] at he
    cases he
  case case5 =>
    intro fs gs k nv h1 h2 hk1 hk2 e he
    rw [diffEntryL_add h1 h2, List.mem_singleton] at he
    subst he
    intro c hc
    rw [List.mem_singleton] at hc
    subst hc
    exact goodKey_of_mem_keys hk2 (lookupField_mem_keys h2)
  case case6 =>
    intro fs gs k ov h1 h2 hk1 hk2 e he
    rw [diffEntryL_del h1 h2, List.mem_singleton] at he
    subst he
    intro c hc
    rw [List.mem_singleton] at hc
    subst hc
    exact goodKey_of_mem_keys hk1 (lookupField_mem_keys h1)
  case case7 =>
    intro fs gs k ov nv h1 h2 hp hbeq hk1 hk2 e he
    rw [diffEntryL_prim h1 h2 hp, if_pos hbeq] at he
    cases he
  case case8 =>
    intro fs gs k ov nv h1 h2 hp hbeq hk1 hk2 e he
    rw [diffEntryL_prim h1 h2 hp, if_neg hbeq, List.mem_singleton] at he
    subst he
    intro c hc
    rw [List.mem_singleton] at hc
    subst hc
    exact goodKey_of_mem_keys hk1 (lookupField_mem_keys h1)
  case case9 =>
    intro fs gs k ov nv h1 h2 hp ha hbeq hk1 hk2 e he
    rw [diffEntryL_arr h1 h2 (Bool.not_eq_true _ ▸ hp) ha, if_pos hbeq] at he
    cases he
  case case10 =>
    intro fs gs k ov nv h1 h2 hp ha hbeq hk1 hk2 e he
    rw [diffEntryL_arr h1 h2 (Bool.not_eq_true _ ▸ hp) ha, if_neg hbeq, List.mem_singleton] at he
    subst he
    intro c hc
    rw [List.mem_singleton] at hc
    subst hc
    exact goodKey_of_mem_keys hk1 (lookupField_mem_keys h1)
  case case11 =>
    intro fs gs k fs2 gs2 ha hb ha2 hb2 hp harr ih hk1 hk2 e he
    rw [diffEntryL_objobj ha hb, List.mem_map] at he
    obtain ⟨e2, he2mem, he2⟩ := he
    subst he2
    intro c hc
    rw [List.mem_cons] at hc
    rcases hc with hc | hc
    · subst hc
      exact goodKey_of_mem_keys hk1 (lookupField_mem_keys ha)
    · have hkf2 : keysOkF fs2 = true := by
        have := keysOkF_lookup hk1 ha
        simpa [keysOkV] using this
      have hkg2 : keysOkF gs2 = true := by
        have := keysOkF_lookup hk2 hb
        simpa [keysOkV] using this
      exact ih hkf2 hkg2 e2 he2mem c hc
  case case12 =>
    intro fs gs k ov nv ha hb hp harr h1 h2 hcontra hk1 hk2 e he
    exfalso
    cases ov <;> cases nv <;>
      first
        | simp_all [isPrim, isArr]
        | exact hcontra _ _ h1 h2 rfl rfl HEq.rfl HEq.rfl

/-- The source differ is the path-list mirror with paths joined into
dotted strings. -/
theorem diff_bridge : ∀ fs gs path, diffFields fs gs path =
    (diffFieldsL fs gs).map (fun e => (joinAll path e.1, e.2)) := by
  apply diffFields.induct
    (fun fs gs path => diffFields fs gs path =
      (diffFieldsL fs gs).map (fun e => (joinAll path e.1, e.2)))
    (fun fs gs path ks => diffKeys fs gs path ks =
      (diffKeysL fs gs ks).map (fun e => (joinAll path e.1, e.2)))
    (fun fs gs path k => diffEntry fs gs path k =
      (diffEntryL fs gs k).map (fun e => (joinAll path e.1, e.2)))
  case case1 =>
    intro fs gs path ih
    rw [diffFields_eq, diffFieldsL_eq, ih]
  case case2 =>
    intro fs gs path
    rw [diffKeys_nil, diffKeysL_nil]
    rfl
  case case3 =>
    intro fs gs path k ks ih1 ih2
    rw [diffKeys_cons, diffKeysL_cons, ih1, ih2, List.map_append]
  case case4 =>
    intro fs gs path k h1 h2
    rw [diffEntry_nn h1 h2, diffEntryL_nn h1 h2]
    rfl
  case case5 =>
    intro fs gs path k nv h1 h2
    rw [diffEntry_add h1 h2, diffEntryL_add h1 h2]
    rfl
  case case6 =>
    intro fs gs path k ov h1 h2
    rw [diffEntry_del h1 h2, diffEntryL_del h1 h2]
    rfl
  case case7 =>
    intro fs gs path k ov nv h1 h2 hp hbeq
    rw [diffEntry_prim h1 h2 hp, diffEntryL_prim h1 h2 hp, if_pos hbeq, if_pos hbeq]
    rfl
  case case8 =>
    intro fs gs path k ov nv h1 h2 hp hbeq
    rw [diffEntry_prim h1 h2 hp, diffEntryL_prim h1 h2 hp, if_neg hbeq, if_neg hbeq]
    rfl
  case case9 =>
    intro fs gs path k ov nv h1 h2 hp ha hbeq
    rw [diffEntry_arr h1 h2 (Bool.not_eq_true _ ▸ hp) ha,
      diffEntryL_arr h1 h2 (Bool.not_eq_true _ ▸ hp) ha, if_pos hbeq, if_pos hbeq]
    rfl
  case case10 =>
    intro fs gs path k ov nv h1 h2 hp ha hbeq
    rw [diffEntry_arr h1 h2 (Bool.not_eq_true _ ▸ hp) ha,
      diffEntryL_arr h1 h2 (Bool.not_eq_true _ ▸ hp) ha, if_neg hbeq, if_neg hbeq]
    rfl
  case case11 =>
    intro fs gs path k fs2 gs2 ha hb ha2 hb2 hp harr ih
    rw [diffEntry_objobj ha hb, diffEntryL_objobj ha hb, ih, List.map_map]
    rfl
  case case12 =>
    intro fs gs path k ov nv ha hb hp harr h1 h2 hcontra
    exfalso
    cases ov <;> cases nv <;>
      first
        | simp_all [isPrim, isArr]
        | exact hcontra _ _ h1 h2 rfl rfl HEq.rfl HEq.rfl

theorem foldl_apply_map (dL : List (List String × Op)) :
    ∀ acc : Option JVal,
    (∀ e ∈ dL, e.1 ≠ []) → (∀ e ∈ dL, ∀ c ∈ e.1, goodKey c = true) →
    (dL.map (fun e => (joinAll "" e.1, e.2))).foldl
      (fun a e => a.bind (fun cur => applyEntry cur (splitDot e.1) e.2)) acc =
    dL.foldl (fun a e => a.bind (fun cur => applyEntry cur e.1 e.2)) acc := by
  induction dL with
  | nil => intro acc _ _; rfl
  | cons e rest ih =>
    intro acc hne hgood
    simp only [List.map_cons, List.foldl_cons]
    rw [splitDot_joinAll e.1 (hne e (by simp)) (fun c hc => hgood e (by simp) c hc)]
    exact ih _ (fun x hx => hne x (by simp [hx])) (fun x hx => hgood x (by simp [hx]))

theorem applyDiff_join_eq (target : JVal) (dL : List (List String × Op))
    (hne : ∀ e ∈ dL, e.1 ≠ [])
    (hgood : ∀ e ∈ dL, ∀ c ∈ e.1, goodKey c = true) :
    applyDiff target (dL.map (fun e => (joinAll "" e.1, e.2))) = applyDiffL target dL := by
  show (dL.map (fun e => (joinAll "" e.1, e.2))).foldl _ (some target) = _
  exact foldl_apply_map dL (some target) hne hgood

/-- C1 (counterexample): the round-trip law fails for snapshots whose
keys contain a dot.  Diffing `{}` against `{"a.b": 1}` yields the entry
`"a.b" ↦ add 1`; `applyDiff` splits that path on dots and builds the
nested object `{a: {b: 1}}`, which is not deep-equal to `{"a.b": 1}`. -/
theorem C1_counterexample :
    deepDiff (JVal.obj []) (JVal.obj [("a.b", JVal.num 1)]) =
      DiffResult.entries [("a.b", Op.add (JVal.num 1))] ∧
    applyDiff (JVal.obj []) [("a.b", Op.add (JVal.num 1))] =
      some (JVal.obj [("a", JVal.obj [("b", JVal.num 1)])]) ∧
    canon (JVal.obj [("a", JVal.obj [("b", JVal.num 1)])]) ≠
      canon (JVal.obj [("a.b", JVal.num 1)]) := by
  have hs : splitDot "a.b" = ["a", "b"] := by decide
  refine ⟨?_, ?_, ?_⟩
  · simp [deepDiff, isPrim, isArr, fieldsOf, diffFields, diffKeys, diffEntry,
      dedupFirst, dedupGo, keysOf, lookupField, joinPath]
  · simp [applyDiff, hs, applyEntry, applyLeaf, setField, lookupField, falsy]
  · simp [canon, canonFields, canonList, sortPairs, insertPair]

/-- C1 (amended): for snapshots that are objects whose keys, at every
level, are nonempty and dot-free, and with no duplicate keys,
`applyDiff(A, deepDiff(A, B))` succeeds and returns a value deep-equal
to `B` (equal canonical forms, i.e. equal up to object key order). -/
theorem C1_diff_roundtrip (fs gs : List (String × JVal))
    (hwf1 : wfV (.obj fs) = true) (hwf2 : wfV (.obj gs) = true)
    (hko1 : keysOkV (.obj fs) = true) (hko2 : keysOkV (.obj gs) = true) :
    ∃ d, deepDiff (.obj fs) (.obj gs) = .entries d ∧
      (applyDiff (.obj fs) d).map canon = some (canon (.obj gs)) := by
  have hko1' : keysOkF fs = true := by simpa [keysOkV] using hko1
  have hko2' : keysOkF gs = true := by simpa [keysOkV] using hko2
  refine ⟨diffFields fs gs "", ?_, ?_⟩
  · simp [deepDiff, isPrim, isArr, fieldsOf]
  · rw [diff_bridge]
    rw [applyDiff_join_eq _ _ (diffL_paths_nonempty fs gs)
      (diffL_components_good fs gs hko1' hko2')]
    obtain ⟨rs, hap, hc⟩ := roundtripAux (sizeOf fs + sizeOf gs) fs gs le_rfl hwf1 hwf2
    rw [hap]
    simp [hc]

theorem C1_diff_roundtrip_witness :
    ∃ d, deepDiff (.obj [("hp", JVal.num 1)]) (.obj [("hp", JVal.num 2)]) = .entries d ∧
      (applyDiff (.obj [("hp", JVal.num 1)]) d).map canon =
        some (canon (.obj [("hp", JVal.num 2)])) :=
  C1_diff_roundtrip [("hp", .num 1)] [("hp", .num 2)]
    (by simp [wfV, wfF, nodupKeys, keysOf])
    (by simp [wfV, wfF, nodupKeys, keysOf])
    (by simp [keysOkV, keysOkF, keysOkL, show goodKey "hp" = true from by decide])
    (by simp [keysOkV, keysOkF, keysOkL, show goodKey "hp" = true from by decide])

/-! ## Heap frame analysis for `applyDiff` (C10) -/

theorem alloc_mem (h : Heap) (nd : HNode) (b : Nat) :
    (alloc h nd).1.mem b = if b = h.next then some nd else h.mem b := rfl

theorem alloc_next (h : Heap) (nd : HNode) : (alloc h nd).1.next = h.next + 1 := rfl

theorem alloc_addr (h : Heap) (nd : HNode) : (alloc h nd).2 = h.next := rfl

theorem setMem_mem (h : Heap) (a : Nat) (nd : HNode) (b : Nat) :
    (setMem h a nd).mem b = if b = a then some nd else h.mem b := rfl

theorem setMem_next (h : Heap) (a : Nat) (nd : HNode) : (setMem h a nd).next = h.next := rfl

theorem setAssocN_snd_sub (fs : List (String × Nat)) (k : String) (v : Nat) :
    ∀ c ∈ (setAssocN fs k v).map Prod.snd, c ∈ fs.map Prod.snd ∨ c = v := by
  induction fs with
  | nil => intro c hc; simp [setAssocN] at hc; exact Or.inr hc
  | cons p rest ih =>
    obtain ⟨k', v'⟩ := p
    intro c hc
    simp only [setAssocN] at hc
    split at hc
    · simp only [List.map_cons, List.mem_cons] at hc
      rcases hc with hc | hc
      · exact Or.inr hc
      · exact Or.inl (by simp [hc])
    · simp only [List.map_cons, List.mem_cons] at hc
      rcases hc with hc | hc
      · exact Or.inl (by simp [hc])
      · rcases ih c hc with h | h
        · exact Or.inl (by simp [h])
        · exact Or.inr h

theorem removeAssocN_snd_sub (fs : List (String × Nat)) (k : String) :
    ∀ c ∈ (removeAssocN fs k).map Prod.snd, c ∈ fs.map Prod.snd := by
  induction fs with
  | nil => intro c hc; simp [removeAssocN] at hc
  | cons p rest ih =>
    obtain ⟨k', v'⟩ := p
    intro c hc
    simp only [removeAssocN] at hc
    split at hc
    · exact List.mem_cons_of_mem _ hc
    · simp only [List.map_cons, List.mem_cons] at hc
      rcases hc with hc | hc
      · simp [hc]
      · exact List.mem_cons_of_mem _ (ih c hc)

theorem assocLookup_mem_snd {fs : List (String × Nat)} {k : String} {v : Nat}
    (h : assocLookup fs k = some v) : v ∈ fs.map Prod.snd := by
  induction fs with
  | nil => simp [assocLookup] at h
  | cons p rest ih =>
    obtain ⟨k', v'⟩ := p
    simp only [assocLookup] at h
    split at h
    · cases h; simp
    · exact List.mem_cons_of_mem _ (ih h)

theorem reach_mem_of_closed {h : Heap} {S : Nat → Prop} (hc : ClosedSet h S)
    {a b : Nat} (ha : S a) (hr : Reach h a b) : S b := by
  induction hr with
  | refl => exact ha
  | step _ hmem hchild ih => exact hc _ ih _ hmem _ hchild

theorem heapGrow_refl (h : Heap) (hhi : ∀ b, h.next ≤ b → h.mem b = none) :
    heapGrow h h := by
  refine ⟨fun b _ => rfl, le_refl _, hhi, fun b nd hb hmem c _ => ?_⟩
  rw [hhi b hb] at hmem
  cases hmem

theorem heapGrow_trans {h h2 h3 : Heap} (g1 : heapGrow h h2) (g2 : heapGrow h2 h3) :
    heapGrow h h3 := by
  obtain ⟨m1, n1, e1, c1⟩ := g1
  obtain ⟨m2, n2, e2, c2⟩ := g2
  refine ⟨fun b hb => ?_, le_trans n1 n2, e2, fun b nd hb hmem c hc => ?_⟩
  · rw [m2 b (lt_of_lt_of_le hb n1), m1 b hb]
  · by_cases hb2 : b < h2.next
    · rw [m2 b hb2] at hmem
      obtain ⟨hc1, hc2⟩ := c1 b nd hb hmem c hc
      exact ⟨hc1, lt_of_lt_of_le hc2 n2⟩
    · obtain ⟨hc1, hc2⟩ := c2 b nd (le_of_not_lt hb2) hmem c hc
      exact ⟨le_trans n1 hc1, hc2⟩

theorem heapGrow_alloc_step {h h2 : Heap} (g : heapGrow h h2) (nd : HNode)
    (hch : ∀ c ∈ childAddrs nd, h.next ≤ c ∧ c < h2.next) :
    heapGrow h (alloc h2 nd).1 := by
  obtain ⟨m1, n1, e1, c1⟩ := g
  refine ⟨fun b hb => ?_, ?_, fun b hb => ?_, fun b nd' hb hmem c hc => ?_⟩
  · rw [alloc_mem, if_neg (by omega : ¬ b = h2.next)]
    exact m1 b hb
  · rw [alloc_next]; omega
  · rw [alloc_next] at hb
    rw [alloc_mem, if_neg (by omega : ¬ b = h2.next)]
    exact e1 b (by omega)
  · rw [alloc_mem] at hmem
    rw [alloc_next]
    split at hmem
    · cases hmem
      obtain ⟨h1, h2⟩ := hch c hc
      exact ⟨h1, by omega⟩
    · obtain ⟨h1, h2⟩ := c1 b nd' hb hmem c hc
      exact ⟨h1, by omega⟩

/-- The deep-copy phase only allocates: it never writes an existing
address, and the copy lives entirely in the fresh region. -/
theorem copyNode_frame : ∀ (fuel : Nat) (h : Heap) (a : Nat), ∀ h2 r,
    copyNode fuel h a = some (h2, r) →
    (∀ b, h.next ≤ b → h.mem b = none) →
    heapGrow h h2 ∧ h.next ≤ r ∧ r < h2.next := by
  apply copyNode.induct
    (fun fuel h a => ∀ h2 r, copyNode fuel h a = some (h2, r) →
      (∀ b, h.next ≤ b → h.mem b = none) →
      heapGrow h h2 ∧ h.next ≤ r ∧ r < h2.next)
    (fun fuel h xs => ∀ h2 nxs, copyElems fuel h xs = some (h2, nxs) →
      (∀ b, h.next ≤ b → h.mem b = none) →
      heapGrow h h2 ∧ ∀ c ∈ nxs, h.next ≤ c ∧ c < h2.next)
    (fun fuel h fs => ∀ h2 nfs, copyFields fuel h fs = some (h2, nfs) →
      (∀ b, h.next ≤ b → h.mem b = none) →
      heapGrow h h2 ∧ ∀ c ∈ nfs.map Prod.snd, h.next ≤ c ∧ c < h2.next)
  case case1 =>
    intro h a h2 r hc
    simp [copyNode] at hc
  case case2 =>
    intro fuel h a hmem h2 r hc
    simp [copyNode, hmem] at hc
  case case3 =>
    intro fuel h a fs hmem h2 nfs hcf ih h2f r hc hhi
    simp only [copyNode, hmem, hcf, Option.some.injEq, Prod.mk.injEq] at hc
    obtain ⟨rfl, rfl⟩ := hc
    obtain ⟨g, hch⟩ := ih h2 nfs hcf hhi
    refine ⟨heapGrow_alloc_step g _ (by simpa [childAddrs] using hch), ?_, ?_⟩
    · exact g.2.1
    · exact Nat.lt_succ_self _
  case case4 =>
    intro fuel h a fs hmem hcf ih h2 r hc
    simp [copyNode, hmem, hcf] at hc
  case case5 =>
    intro fuel h a xs hmem h2 nxs hce ih h2f r hc hhi
    simp only [copyNode, hmem, hce, Option.some.injEq, Prod.mk.injEq] at hc
    obtain ⟨rfl, rfl⟩ := hc
    obtain ⟨g, hch⟩ := ih h2 nxs hce hhi
    refine ⟨heapGrow_alloc_step g _ (by simpa [childAddrs] using hch), ?_, ?_⟩
    · exact g.2.1
    · exact Nat.lt_succ_self _
  case case6 =>
    intro fuel h a xs hmem hce ih h2 r hc
    simp [copyNode, hmem, hce] at hc
  case case7 =>
    intro fuel h a nd hnobj hnarr hmem h2 r hc hhi
    cases nd with
    | hobj fs => exact (hnobj fs rfl).elim
    | harr xs => exact (hnarr xs rfl).elim
    | hnull =>
      simp only [copyNode, hmem, Option.some.injEq, Prod.mk.injEq] at hc
      obtain ⟨rfl, rfl⟩ := hc
      refine ⟨heapGrow_alloc_step (heapGrow_refl h hhi) _ (by simp [childAddrs]), ?_, ?_⟩
      · exact le_refl _
      · exact Nat.lt_succ_self _
    | hstr s =>
      simp only [copyNode, hmem, Option.some.injEq, Prod.mk.injEq] at hc
      obtain ⟨rfl, rfl⟩ := hc
      refine ⟨heapGrow_alloc_step (heapGrow_refl h hhi) _ (by simp [childAddrs]), ?_, ?_⟩
      · exact le_refl _
      · exact Nat.lt_succ_self _
    | hnum n =>
      simp only [copyNode, hmem, Option.some.injEq, Prod.mk.injEq] at hc
      obtain ⟨rfl, rfl⟩ := hc
      refine ⟨heapGrow_alloc_step (heapGrow_refl h hhi) _ (by simp [childAddrs]), ?_, ?_⟩
      · exact le_refl _
      · exact Nat.lt_succ_self _
    | hbool b =>
      simp only [copyNode, hmem, Option.some.injEq, Prod.mk.injEq] at hc
      obtain ⟨rfl, rfl⟩ := hc
      refine ⟨heapGrow_alloc_step (heapGrow_refl h hhi) _ (by simp [childAddrs]), ?_, ?_⟩
      · exact le_refl _
      · exact Nat.lt_succ_self _
  case case8 =>
    intro x h h2 nxs hc hhi
    simp only [copyElems, Option.some.injEq, Prod.mk.injEq] at hc
    obtain ⟨rfl, rfl⟩ := hc
    exact ⟨heapGrow_refl h hhi, by simp⟩
  case case9 =>
    intro fuel h a rest h2 na hcn h21 nxs hce ih1 ih2 h2f nxsf hc hhi
    simp only [copyElems, hcn, hce, Option.some.injEq, Prod.mk.injEq] at hc
    obtain ⟨rfl, rfl⟩ := hc
    obtain ⟨g1, hna1, hna2⟩ := ih1 h2 na hcn hhi
    obtain ⟨g2, hrest⟩ := ih2 h21 nxs hce g1.2.2.1
    refine ⟨heapGrow_trans g1 g2, ?_⟩
    intro c hc
    rcases List.mem_cons.mp hc with hc | hc
    · subst hc
      exact ⟨hna1, lt_of_lt_of_le hna2 g2.2.1⟩
    · obtain ⟨hc1, hc2⟩ := hrest c hc
      exact ⟨le_trans g1.2.1 hc1, hc2⟩
  case case10 =>
    intro fuel h a rest h2 na hcn hce ih1 ih2 h2f nxsf hc
    simp [copyElems, hcn, hce] at hc
  case case11 =>
    intro fuel h a rest hcn ih h2 nxs hc
    simp [copyElems, hcn] at hc
  case case12 =>
    intro x h h2 nfs hc hhi
    simp only [copyFields, Option.some.injEq, Prod.mk.injEq] at hc
    obtain ⟨rfl, rfl⟩ := hc
    exact ⟨heapGrow_refl h hhi, by simp⟩
  case case13 =>
    intro fuel h k a rest h2 na hcn h21 nfs hcf ih1 ih2 h2f nfsf hc hhi
    simp only [copyFields, hcn, hcf, Option.some.injEq, Prod.mk.injEq] at hc
    obtain ⟨rfl, rfl⟩ := hc
    obtain ⟨g1, hna1, hna2⟩ := ih1 h2 na hcn hhi
    obtain ⟨g2, hrest⟩ := ih2 h21 nfs hcf g1.2.2.1
    refine ⟨heapGrow_trans g1 g2, ?_⟩
    intro c hc
    simp only [List.map_cons, List.mem_cons] at hc
    rcases hc with hc | hc
    · subst hc
      exact ⟨hna1, lt_of_lt_of_le hna2 g2.2.1⟩
    · obtain ⟨hc1, hc2⟩ := hrest c hc
      exact ⟨le_trans g1.2.1 hc1, hc2⟩
  case case14 =>
    intro fuel h k a rest h2 na hcn hcf ih1 ih2 h2f nfsf hc
    simp [copyFields, hcn, hcf] at hc
  case case15 =>
    intro fuel h k a rest hcn ih h2 nfs hc
    simp [copyFields, hcn] at hc

theorem closed_setMem {h : Heap} {S : Nat → Prop} {a : Nat} {nd : HNode}
    (hcl : ClosedSet h S) (hch : ∀ c ∈ childAddrs nd, S c) :
    ClosedSet (setMem h a nd) S := by
  intro b hb nd' hm c hcc
  rw [setMem_mem] at hm
  split at hm
  · cases hm; exact hch c hcc
  · exact hcl b hb nd' hm c hcc

/-- The walk-and-apply of one entry stays inside a closed set of
addresses containing the start and the installed value: memory outside
the set and below the allocation frontier is untouched, and the set
grows only by freshly allocated addresses. -/
theorem navApply_frame : ∀ (hh : Heap) (cur : Nat) (path : List String) (lastKey : String)
    (op : OpH) (hh' : Heap), navApply hh cur path lastKey op = some hh' →
    ∀ S : Nat → Prop, ClosedSet hh S → S cur → (∀ v, opValueAddr op = some v → S v) →
    ∃ S' : Nat → Prop, (∀ b, S b → S' b) ∧ ClosedSet hh' S' ∧
      (∀ b, S' b → S b ∨ hh.next ≤ b) ∧
      (∀ b, ¬ S b → b < hh.next → hh'.mem b = hh.mem b) ∧
      hh.next ≤ hh'.next := by
  apply navApply.induct
    (motive := fun hh cur path lastKey op => ∀ hh',
      navApply hh cur path lastKey op = some hh' →
      ∀ S : Nat → Prop, ClosedSet hh S → S cur → (∀ v, opValueAddr op = some v → S v) →
      ∃ S' : Nat → Prop, (∀ b, S b → S' b) ∧ ClosedSet hh' S' ∧
        (∀ b, S' b → S b ∨ hh.next ≤ b) ∧
        (∀ b, ¬ S b → b < hh.next → hh'.mem b = hh.mem b) ∧
        hh.next ≤ hh'.next)
  case case1 =>
    intro h cur lastKey fs hmem a hh' hnav S hcl hcur hval
    simp only [navApply, hmem, Option.some.injEq] at hnav
    subst hnav
    refine ⟨S, fun b hb => hb, ?_, fun b hb => Or.inl hb, fun b hb _ => ?_, le_refl _⟩
    · refine closed_setMem hcl ?_
      intro c hcc
      simp only [childAddrs] at hcc
      rcases setAssocN_snd_sub fs lastKey a c hcc with hc | hc
      · exact hcl cur hcur _ hmem c (by simpa [childAddrs] using hc)
      · subst hc; exact hval c rfl
    · rw [setMem_mem, if_neg (fun hba => hb (by rw [hba]; exact hcur))]
  case case2 =>
    intro h cur lastKey fs hmem a hh' hnav S hcl hcur hval
    simp only [navApply, hmem, Option.some.injEq] at hnav
    subst hnav
    refine ⟨S, fun b hb => hb, ?_, fun b hb => Or.inl hb, fun b hb _ => ?_, le_refl _⟩
    · refine closed_setMem hcl ?_
      intro c hcc
      simp only [childAddrs] at hcc
      rcases setAssocN_snd_sub fs lastKey a c hcc with hc | hc
      · exact hcl cur hcur _ hmem c (by simpa [childAddrs] using hc)
      · subst hc; exact hval c rfl
    · rw [setMem_mem, if_neg (fun hba => hb (by rw [hba]; exact hcur))]
  case case3 =>
    intro h cur lastKey fs hmem hh' hnav S hcl hcur hval
    simp only [navApply, hmem, Option.some.injEq] at hnav
    subst hnav
    refine ⟨S, fun b hb => hb, ?_, fun b hb => Or.inl hb, fun b hb _ => ?_, le_refl _⟩
    · refine closed_setMem hcl ?_
      intro c hcc
      simp only [childAddrs] at hcc
      have hc := removeAssocN_snd_sub fs lastKey c hcc
      exact hcl cur hcur _ hmem c (by simpa [childAddrs] using hc)
    · rw [setMem_mem, if_neg (fun hba => hb (by rw [hba]; exact hcur))]
  case case4 =>
    intro h cur lastKey op hnobj hh' hnav S hcl hcur hval
    exfalso
    cases hm : h.mem cur with
    | none => cases op <;> simp [navApply, hm] at hnav
    | some nd =>
      cases nd with
      | hobj fs => exact hnobj fs hm
      | hnull => cases op <;> simp [navApply, hm] at hnav
      | hstr s => cases op <;> simp [navApply, hm] at hnav
      | hnum n => cases op <;> simp [navApply, hm] at hnav
      | hbool b => cases op <;> simp [navApply, hm] at hnav
      | harr xs => cases op <;> simp [navApply, hm] at hnav
  case case5 =>
    intro h cur p rest lastKey op fs hmem child hlook hfalsy al ih hh' hnav S hcl hcur hval
    simp only [navApply, hmem, hlook, hfalsy, if_true] at hnav
    have hclosed1 : ClosedSet (setMem (alloc h (.hobj [])).1 cur
        (.hobj (setAssocN fs p (alloc h (.hobj [])).2)))
        (fun b => S b ∨ b = h.next) := by
      intro b hb nd hm c hcc
      rw [setMem_mem] at hm
      split at hm
      · cases hm
        simp only [childAddrs, alloc_addr] at hcc
        rcases setAssocN_snd_sub fs p h.next c hcc with hc | hc
        · exact Or.inl (hcl cur hcur _ hmem c (by simpa [childAddrs] using hc))
        · exact Or.inr hc
      · rw [alloc_mem] at hm
        split at hm
        · cases hm
          simp [childAddrs] at hcc
        · rcases hb with hb | hb
          · exact Or.inl (hcl b hb nd hm c hcc)
          · omega
    obtain ⟨S', hsub, hcl', hnew, hmemp, hnext⟩ :=
      ih hh' hnav (fun b => S b ∨ b = h.next) hclosed1 (Or.inr (alloc_addr h _))
        (fun v hv => Or.inl (hval v hv))
    refine ⟨S', fun b hb => hsub b (Or.inl hb), hcl', fun b hb => ?_, fun b hb hblt => ?_, ?_⟩
    · rcases hnew b hb with (hb | hb) | hb
      · exact Or.inl hb
      · exact Or.inr (le_of_eq hb.symm)
      · rw [setMem_next, alloc_next] at hb
        exact Or.inr (by omega)
    · have hb1 : ¬ (S b ∨ b = h.next) := by
        rintro (hc | hc)
        · exact hb hc
        · omega
      rw [hmemp b hb1 (by rw [setMem_next, alloc_next]; omega)]
      rw [setMem_mem, if_neg (fun hba => hb (by rw [hba]; exact hcur)), alloc_mem,
        if_neg (by omega : ¬ b = h.next)]
    · rw [setMem_next, alloc_next] at hnext
      omega
  case case6 =>
    intro h cur p rest lastKey op fs hmem child hlook hfalsy ih hh' hnav S hcl hcur hval
    simp only [navApply, hmem, hlook, hfalsy, if_false] at hnav
    have hchild : S child :=
      hcl cur hcur _ hmem child (by simpa [childAddrs] using assocLookup_mem_snd hlook)
    exact ih hh' hnav S hcl hchild hval
  case case7 =>
    intro h cur p rest lastKey op fs hmem hlook al ih hh' hnav S hcl hcur hval
    simp only [navApply, hmem, hlook] at hnav
    have hclosed1 : ClosedSet (setMem (alloc h (.hobj [])).1 cur
        (.hobj (setAssocN fs p (alloc h (.hobj [])).2)))
        (fun b => S b ∨ b = h.next) := by
      intro b hb nd hm c hcc
      rw [setMem_mem] at hm
      split at hm
      · cases hm
        simp only [childAddrs, alloc_addr] at hcc
        rcases setAssocN_snd_sub fs p h.next c hcc with hc | hc
        · exact Or.inl (hcl cur hcur _ hmem c (by simpa [childAddrs] using hc))
        · exact Or.inr hc
      · rw [alloc_mem] at hm
        split at hm
        · cases hm
          simp [childAddrs] at hcc
        · rcases hb with hb | hb
          · exact Or.inl (hcl b hb nd hm c hcc)
          · omega
    obtain ⟨S', hsub, hcl', hnew, hmemp, hnext⟩ :=
      ih hh' hnav (fun b => S b ∨ b = h.next) hclosed1 (Or.inr (alloc_addr h _))
        (fun v hv => Or.inl (hval v hv))
    refine ⟨S', fun b hb => hsub b (Or.inl hb), hcl', fun b hb => ?_, fun b hb hblt => ?_, ?_⟩
    · rcases hnew b hb with (hb | hb) | hb
      · exact Or.inl hb
      · exact Or.inr (le_of_eq hb.symm)
      · rw [setMem_next, alloc_next] at hb
        exact Or.inr (by omega)
    · have hb1 : ¬ (S b ∨ b = h.next) := by
        rintro (hc | hc)
        · exact hb hc
        · omega
      rw [hmemp b hb1 (by rw [setMem_next, alloc_next]; omega)]
      rw [setMem_mem, if_neg (fun hba => hb (by rw [hba]; exact hcur)), alloc_mem,
        if_neg (by omega : ¬ b = h.next)]
    · rw [setMem_next, alloc_next] at hnext
      omega
  case case8 =>
    intro h cur p rest lastKey op hnobj hh' hnav S hcl hcur hval
    exfalso
    cases hm : h.mem cur with
    | none => cases op <;> simp [navApply, hm] at hnav
    | some nd =>
      cases nd with
      | hobj fs => exact hnobj fs hm
      | hnull => cases op <;> simp [navApply, hm] at hnav
      | hstr s => cases op <;> simp [navApply, hm] at hnav
      | hnum n => cases op <;> simp [navApply, hm] at hnav
      | hbool b => cases op <;> simp [navApply, hm] at hnav
      | harr xs => cases op <;> simp [navApply, hm] at hnav

theorem applyEntryH_frame (hh : Heap) (root : Nat) (path : String) (op : OpH) (hh' : Heap)
    (happ : applyEntryH hh root path op = some hh')
    (S : Nat → Prop) (hcl : ClosedSet hh S) (hroot : S root)
    (hval : ∀ v, opValueAddr op = some v → S v) :
    ∃ S' : Nat → Prop, (∀ b, S b → S' b) ∧ ClosedSet hh' S' ∧
      (∀ b, S' b → S b ∨ hh.next ≤ b) ∧
      (∀ b, ¬ S b → b < hh.next → hh'.mem b = hh.mem b) ∧
      hh.next ≤ hh'.next := by
  unfold applyEntryH at happ
  cases hsp : (splitDot path).reverse with
  | nil =>
    rw [hsp] at happ
    exact Option.noConfusion happ
  | cons lastKey revInit =>
    rw [hsp] at happ
    exact navApply_frame hh root revInit.reverse lastKey op hh' happ S hcl hroot hval

theorem foldH_none (diff : List (String × OpH)) (root : Nat) :
    diff.foldl (fun acc e => acc.bind (fun x => applyEntryH x root e.1 e.2)) none = none := by
  induction diff with
  | nil => rfl
  | cons e rest ih => simpa using ih

theorem foldH_frame : ∀ (diff : List (String × OpH)) (hh : Heap) (root : Nat) (hh' : Heap)
    (S : Nat → Prop),
    diff.foldl (fun acc e => acc.bind (fun x => applyEntryH x root e.1 e.2)) (some hh) =
      some hh' →
    ClosedSet hh S → S root → (∀ e ∈ diff, ∀ v, opValueAddr e.2 = some v → S v) →
    ∃ S' : Nat → Prop, (∀ b, S b → S' b) ∧ ClosedSet hh' S' ∧
      (∀ b, S' b → S b ∨ hh.next ≤ b) ∧
      (∀ b, ¬ S b → b < hh.next → hh'.mem b = hh.mem b) ∧
      hh.next ≤ hh'.next := by
  intro diff
  induction diff with
  | nil =>
    intro hh root hh' S hfold hcl hroot hvals
    cases hfold
    exact ⟨S, fun b hb => hb, hcl, fun b hb => Or.inl hb, fun b _ _ => rfl, le_refl _⟩
  | cons e rest ih =>
    intro hh root hh' S hfold hcl hroot hvals
    rw [List.foldl_cons] at hfold
    cases happ : applyEntryH hh root e.1 e.2 with
    | none =>
      rw [show (some hh).bind (fun x => applyEntryH x root e.1 e.2) = none from by
        simp [happ]] at hfold
      rw [foldH_none] at hfold
      cases hfold
    | some hh1 =>
      rw [show (some hh).bind (fun x => applyEntryH x root e.1 e.2) = some hh1 from by
        simp [happ]] at hfold
      obtain ⟨S1, hsub1, hcl1, hnew1, hmem1, hnext1⟩ :=
        applyEntryH_frame hh root e.1 e.2 hh1 happ S hcl hroot
          (fun v hv => hvals e (by simp) v hv)
      obtain ⟨S2, hsub2, hcl2, hnew2, hmem2, hnext2⟩ :=
        ih hh1 root hh' S1 hfold hcl1 (hsub1 root hroot)
          (fun e2 he2 v hv => hsub1 v (hvals e2 (by simp [he2]) v hv))
      refine ⟨S2, fun b hb => hsub2 b (hsub1 b hb), hcl2, fun b hb => ?_,
        fun b hb hlt => ?_, le_trans hnext1 hnext2⟩
      · rcases hnew2 b hb with hb2 | hb2
        · rcases hnew1 b hb2 with hx | hx
          · exact Or.inl hx
          · exact Or.inr hx
        · exact Or.inr (le_trans hnext1 hb2)
      · have hb1 : ¬ S1 b := by
          intro hS1
          rcases hnew1 b hS1 with hx | hx
          · exact hb hx
          · omega
        rw [hmem2 b hb1 (lt_of_lt_of_le hlt hnext1), hmem1 b hb hlt]

theorem reach_lt_next {h : Heap} (hwf : heapWF h) {a b : Nat}
    (ha : a < h.next) (hr : Reach h a b) : b < h.next := by
  induction hr with
  | refl => exact ha
  | step _ hmem hchild _ => exact hwf.2 _ _ hmem _ hchild

theorem copyNode_target_alloc {fuel : Nat} {h : Heap} {a : Nat} {h2 : Heap} {r : Nat}
    (hc : copyNode fuel h a = some (h2, r)) : ∃ nd, h.mem a = some nd := by
  cases fuel with
  | zero => simp [copyNode] at hc
  | succ fuel =>
    cases hm : h.mem a with
    | none => simp [copyNode, hm] at hc
    | some nd => exact ⟨nd, rfl⟩

/-- C10 (amended): `applyDiff` deep-copies the target before mutating, so
as long as the diff's operation values share no structure with the
target (nothing reachable from a `value` address is reachable from the
target), the heap is unchanged on everything reachable from the target
— the input snapshot keeps its value — and nothing reachable from the
returned root is reachable from the target, so the result shares no
mutable parts with the input.  Without the no-aliasing hypothesis the
law fails: installing an aliasing `change.value` lets a later entry's
path walk into the input snapshot and mutate it in place. -/
theorem C10_apply_frame (h : Heap) (target : Nat) (diff : List (String × OpH))
    (fuel : Nat) (h' : Heap) (root : Nat)
    (hwf : heapWF h)
    (hvals : ∀ e ∈ diff, ∀ v, opValueAddr e.2 = some v →
      v < h.next ∧ ∀ b, Reach h v b → ¬ Reach h target b)
    (happ : applyDiffH h target diff fuel = some (h', root)) :
    (∀ b, Reach h target b → h'.mem b = h.mem b) ∧
    (∀ b, Reach h' root b → ¬ Reach h target b) := by
  unfold applyDiffH at happ
  split at happ
  · exact Option.noConfusion happ
  next h1 r hcopy =>
    split at happ
    next h2 hfold =>
      simp only [Option.some.injEq, Prod.mk.injEq] at happ
      obtain ⟨rfl, rfl⟩ := happ
      obtain ⟨g, hr1, hr2⟩ := copyNode_frame fuel h target h1 r hcopy hwf.1
      have htlt : target < h.next := by
        obtain ⟨nd, hmem⟩ := copyNode_target_alloc hcopy
        by_contra hc
        rw [hwf.1 target (le_of_not_lt hc)] at hmem
        cases hmem
      have hplow : ∀ b, Reach h target b → b < h.next :=
        fun b hb => reach_lt_next hwf htlt hb
      have hcl0 : ClosedSet h1 (fun b => (h.next ≤ b ∧ b < h1.next) ∨
          ∃ e ∈ diff, ∃ v, opValueAddr e.2 = some v ∧ Reach h v b) := by
        intro b hb nd hm c hcc
        rcases hb with ⟨hb1, hb2⟩ | ⟨e, he, v, hv, hreach⟩
        · exact Or.inl (g.2.2.2 b nd hb1 hm c hcc)
        · have hvlt := (hvals e he v hv).1
          have hblt : b < h.next := reach_lt_next hwf hvlt hreach
          rw [g.1 b hblt] at hm
          exact Or.inr ⟨e, he, v, hv, Reach.step hreach hm hcc⟩
      have hdisj : ∀ b, ((h.next ≤ b ∧ b < h1.next) ∨
          ∃ e ∈ diff, ∃ v, opValueAddr e.2 = some v ∧ Reach h v b) →
          Reach h target b → False := by
        intro b hb hrb
        rcases hb with ⟨hb1, _⟩ | ⟨e, he, v, hv, hreach⟩
        · exact absurd (hplow b hrb) (by omega)
        · exact (hvals e he v hv).2 b hreach hrb
      obtain ⟨S', hsub, hcl', hnew, hmemp, hnext⟩ :=
        foldH_frame diff h1 r h2 _ hfold hcl0 (Or.inl ⟨hr1, hr2⟩)
          (fun e he v hv => Or.inr ⟨e, he, v, hv, Reach.refl v⟩)
      constructor
      · intro b hb
        have hblt : b < h.next := hplow b hb
        have hnS0 : ¬ ((h.next ≤ b ∧ b < h1.next) ∨
            ∃ e ∈ diff, ∃ v, opValueAddr e.2 = some v ∧ Reach h v b) :=
          fun hS => hdisj b hS hb
        rw [hmemp b hnS0 (lt_of_lt_of_le hblt g.2.1), g.1 b hblt]
      · intro b hb hcontra
        have hbS : S' b := reach_mem_of_closed hcl' (hsub r (Or.inl ⟨hr1, hr2⟩)) hb
        rcases hnew b hbS with hS0 | hhi
        · exact hdisj b hS0 hcontra
        · have := hplow b hcontra
          have := g.2.1
          omega
    next hfold =>
      exact Option.noConfusion happ

/-- C10 (counterexample): with the diff value aliasing the snapshot's
inner object (address 1), applying the diff mutates the input snapshot:
after `applyDiff`, the node at address 1 — reachable from the target at
address 0 — has changed from `\x7b\x7d` to `\x7bb: 1\x7d`. -/
theorem C10_counterexample :
    (applyDiffH cxHeap 0 cxDiff 10).map (fun pr => pr.1.mem 1) =
      some (some (.hobj [("b", 2)])) ∧
    cxHeap.mem 1 = some (.hobj []) ∧
    Reach cxHeap 0 1 := by
  refine ⟨?_, ?_, ?_⟩
  · simp [applyDiffH, copyNode, copyFields, copyElems, cxHeap, cxDiff, alloc, setMem,
      applyEntryH, navApply, splitDot, splitOnChar, splitGo, nodeFalsy, setAssocN,
      assocLookup, opValueAddr]
  · rfl
  · exact Reach.step (Reach.refl 0) (show cxHeap.mem 0 = some (.hobj [("x", 1)]) from rfl)
      (by simp [childAddrs])

theorem C10_apply_frame_witness :
    (applyDiffH whHeap 0 whDiff 10).map (fun pr => pr.1.mem 1) = some (whHeap.mem 1) := by
  have hm0 : whHeap.mem 0 = some (.hobj [("x", 1)]) := rfl
  have hm1 : whHeap.mem 1 = some (.hnum 5) := rfl
  have hm2 : whHeap.mem 2 = some (.hnum 7) := rfl
  have hnul : ∀ a, 3 ≤ a → whHeap.mem a = none := by
    intro a ha
    simp only [whHeap]
    rw [if_neg (by omega), if_neg (by omega), if_neg (by omega)]
  have hwf : heapWF whHeap := by
    constructor
    · intro a ha
      exact hnul a ha
    · intro a nd hmem b hb
      rcases a with _ | _ | _ | n
      · injection hm0.symm.trans hmem with hnd
        subst hnd
        simp only [childAddrs, List.map_cons, List.map_nil, List.mem_singleton] at hb
        subst hb
        exact (by omega : (1 : Nat) < 3)
      · injection hm1.symm.trans hmem with hnd
        subst hnd
        simp [childAddrs] at hb
      · injection hm2.symm.trans hmem with hnd
        subst hnd
        simp [childAddrs] at hb
      · exact Option.noConfusion ((hnul (n + 3) (by omega)).symm.trans hmem)
  have hcl2 : ClosedSet whHeap (fun b => b = 2) := by
    intro a ha nd hm c hc
    subst ha
    injection hm2.symm.trans hm with hnd
    subst hnd
    simp [childAddrs] at hc
  have hcl01 : ClosedSet whHeap (fun b => b = 0 ∨ b = 1) := by
    intro a ha nd hm c hc
    rcases ha with ha | ha
    · subst ha
      injection hm0.symm.trans hm with hnd
      subst hnd
      simp only [childAddrs, List.map_cons, List.map_nil, List.mem_singleton] at hc
      exact Or.inr hc
    · subst ha
      injection hm1.symm.trans hm with hnd
      subst hnd
      simp [childAddrs] at hc
  have hvals : ∀ e ∈ whDiff, ∀ v, opValueAddr e.2 = some v →
      v < whHeap.next ∧ ∀ b, Reach whHeap v b → ¬ Reach whHeap 0 b := by
    intro e he v hv
    simp only [whDiff, List.mem_singleton] at he
    subst he
    simp only [opValueAddr, Option.some.injEq] at hv
    subst hv
    refine ⟨(show (2 : Nat) < 3 by omega), ?_⟩
    intro b hrb hr0
    have hb2 : b = 2 := reach_mem_of_closed hcl2 rfl hrb
    have hb01 : b = 0 ∨ b = 1 := reach_mem_of_closed hcl01 (Or.inl rfl) hr0
    omega
  have hsome : (applyDiffH whHeap 0 whDiff 10).isSome = true := by
    simp [applyDiffH, copyNode, copyFields, copyElems, whHeap, whDiff, alloc, setMem,
      applyEntryH, navApply, splitDot, splitOnChar, splitGo, nodeFalsy, setAssocN,
      assocLookup, opValueAddr]
  obtain ⟨pr, hap⟩ := Option.isSome_iff_exists.mp hsome
  obtain ⟨h', root⟩ := pr
  have hmain := C10_apply_frame whHeap 0 whDiff 10 h' root hwf hvals hap
  have hreach : Reach whHeap 0 1 :=
    Reach.step (Reach.refl 0) hm0 (by simp [childAddrs])
  rw [hap]
  show some (h'.mem 1) = some (whHeap.mem 1)
  rw [hmain.1 1 hreach]
